import Mathlib

/-!
# Verification development for `parser.h` (struct `Parser`)

Shallow embedding of the tokenizer (`skipws`, `consume`, `scanFloatLiteral`,
`scanToken`) and of the precedence-climbing parser (`parseTerminalNode`,
`parseBinaryExpression`) of `src/C1/parser.h`.

Conventions of the embedding
* The text `code` (a `std::string_view`) is a `List Char`; an iterator into it
  is its offset from `code.begin()`, a `Nat`; `code.end()` is `code.length`.
* A `std::string_view` that is assigned by the tokenizer is a `Slot`: the
  offset of its first character and its size.  The view assigned from the
  literal `""` does not point into the text and is `Slot.empty`.
* `token.h`, `ast.h` and `util.h` are not part of the sources at hand.  What
  `parser.h` uses of them is collected in the structure `Tables`
  (the character table, the spelling table, the precedence table and the
  numeric values of the enumerators) or modelled by the obvious inductive
  type (`AstNode`).
* Where the behaviour of the C++ program is undefined (a value-returning
  function left without `return`, `std::from_chars` on an invalid range) the
  embedding stops and records the point (`Outcome.fault`); the program itself
  does not stop there.  Exhausted fuel is a fault as well.
-/

namespace Compiler

/-! ## Data model -/

/-- A `std::string_view` produced by `consume`: `data` is the offset of its
first character in the text (`none` for the view of the literal `""`, which
does not point into the text) and `size` its number of characters. -/
structure Slot where
  data : Option Nat
  size : Nat
deriving DecidableEq, Repr

/-- The view assigned by `slot = ""`. -/
def Slot.empty : Slot := ⟨none, 0⟩

/-- The characters a slot denotes in the text `code`. -/
def Slot.chars (code : List Char) (s : Slot) : List Char :=
  match s.data with
  | none => []
  | some b => (code.drop b).take s.size

/-- The view `std::string_view(slot.data(), &*r)`: same first character,
ending just before offset `r`. -/
def Slot.upTo (s : Slot) (r : Nat) : Slot :=
  match s.data with
  | none => s
  | some b => ⟨some b, r - b⟩

/-- The value stored in `Token::defaultValue`: an `int` or a `double`.  A
`double` is kept as the character range handed to `std::from_chars`; the
rounding of that decimal text to binary64 is not modelled. -/
inductive Literal where
  | int (v : Int)
  | floating (range : List Char)
deriving DecidableEq, Repr

/-- A `Token`: its `type` (a `TokenType` enumerator, as its integer value),
its literal `defaultValue` when one was stored, and `code`, the raw token the
source position is resolved from. -/
structure Token where
  type : Nat
  defaultValue : Option Literal
  code : Slot
deriving DecidableEq, Repr

/-- What `parser.h` takes from `token.h`: the operator characters, the
ordered operator spellings (the index of a spelling is its `TokenType`), the
precedence table indexed by `TokenType`, the values of the enumerators
`PRIMITIVE` and `END_OF_FIELD` (two enumerators of one enumeration, hence
different), the `TokenType` of a value-initialised `Token`, and whether
`std::from_chars` for `double` reports success on a character range. -/
structure Tables where
  OPERATOR_CHARACTERS : List Char
  OPERATOR_TOKENS : List (List Char)
  OPERATOR_PRECEDENCE : Nat → Int
  PRIMITIVE : Nat
  END_OF_FIELD : Nat
  defaultType : Nat
  doubleInRange : List Char → Bool
  distinct : PRIMITIVE ≠ END_OF_FIELD

/-- The nodes built by `AstNode::makeLeaf` and `AstNode::makeParent`. -/
inductive AstNode where
  | leaf (tok : Token)
  | parent (type : Nat) (left right : AstNode)
deriving DecidableEq, Repr

/-- The mutable members of `struct Parser`: the text, the read cursor `r`
and the current token. -/
structure Parser where
  code : List Char
  r : Nat
  currentTok : Token
deriving DecidableEq, Repr

/-- Why the embedding gives a run no result.  `invalidRange`:
`std::from_chars` is called on a range that ends outside the text.
`missingReturn`: `parseTerminalNode` is entered with a current token that is
not `PRIMITIVE`, and control reaches the end of the function, which has no
`return` statement on this path.  In both cases the C++ program signals
nothing and does not stop: its behaviour from that point on is undefined
(the caller goes on with whatever it receives), and the embedding follows it
no further.  `outOfFuel`: the fuel of the embedding ran out. -/
inductive Fault where
  | invalidRange
  | missingReturn
  | outOfFuel
deriving DecidableEq, Repr

/-- Result of a step of the program: a value, or a fault together with the
state of the parser at the point where the fault is reached.  A result `ok`
describes a run that reaches neither a missing `return` nor an invalid
range. -/
inductive Outcome (α : Type) where
  | ok (a : α)
  | fault (f : Fault) (state : Parser)
deriving DecidableEq, Repr

/-- Sequencing of steps: a fault ends the run. -/
def Outcome.bind {α β : Type} (x : Outcome α) (f : α → Outcome β) : Outcome β :=
  match x with
  | .ok a => f a
  | .fault e state => .fault e state

/-! ## Tokenizer -/

/-- The set `WHITESPACE` of `struct Parser`. -/
def WHITESPACE : List Char := [' ', '\n', '\t']

/-- Membership test `isAnyOf(c, set)` of `util.h`. -/
def isAnyOf (c : Char) (set : List Char) : Bool := decide (c ∈ set)

/-- The loop of `skipws`, on the characters from the cursor to the end of
the text: stops at the end of the text or at the first character that is not
whitespace. -/
def skipwsLoop : List Char → Nat → Nat
  | [], r => r
  | c :: rest, r => if isAnyOf c WHITESPACE then skipwsLoop rest (r + 1) else r

/-- The function `Parser::skipws`. -/
def skipws (code : List Char) (r : Nat) : Nat := skipwsLoop (code.drop r) r

/-- The predicate `check` chosen in `consume`: for a raw token that starts
with an operator character, the next character is an operator character;
otherwise it is neither whitespace nor an operator character. -/
def check (T : Tables) (operatorRun : Bool) (c : Char) : Bool :=
  if operatorRun then isAnyOf c T.OPERATOR_CHARACTERS
  else !isAnyOf c WHITESPACE && !isAnyOf c T.OPERATOR_CHARACTERS

/-- The `while (check(*r))` loop of `consume`, on the characters from the
cursor (which is before the end of the text when the loop is entered):
the cursor moves over an accepted character; when that reaches the end of the
text the function returns at once, `slot` not updated; otherwise `slot` is
extended up to the cursor. -/
def consumeLoop (T : Tables) (operatorRun : Bool) : List Char → Nat → Slot → Nat × Slot
  | [], r, slot => (r, slot)
  | c :: rest, r, slot =>
    if check T operatorRun c then
      if rest.isEmpty then (r + 1, slot)
      else consumeLoop T operatorRun rest (r + 1) (slot.upTo (r + 1))
    else (r, slot)

/-- The function `Parser::consume`: returns the cursor after the raw token
and the `slot`. -/
def consume (T : Tables) (code : List Char) (r : Nat) : Nat × Slot :=
  let r0 := skipws code r
  match code.drop r0 with
  | [] => (r0, Slot.empty)
  | c :: rest =>
    if rest.isEmpty then (r0 + 1, ⟨some r0, 1⟩)
    else consumeLoop T (isAnyOf c T.OPERATOR_CHARACTERS) rest (r0 + 1) ⟨some r0, 1⟩

/-- The call `std::find(std::begin(OPERATOR_TOKENS), std::end(OPERATOR_TOKENS), str)`,
as the offset of the returned pointer from the start of the table: the index
of the first entry equal to `str`, or the length of the table when there is
none. -/
def find : List (List Char) → List Char → Nat
  | [], _ => 0
  | entry :: rest, str => if entry = str then 0 else find rest str + 1

/-- Value of a run of decimal digits, most significant first. -/
def digitsValue (ds : List Char) : Nat :=
  ds.foldl (fun acc c => 10 * acc + (c.toNat - '0'.toNat)) 0

/-- The call `std::from_chars(first, last, num)` for `int num` (32 bits):
reads the longest run of digits at the start of the range, after an optional
minus sign; fails when there is no digit or the value is not representable. -/
def fromCharsInt (range : List Char) : Option Int :=
  match range with
  | '-' :: rest =>
    let ds := rest.takeWhile Char.isDigit
    if ds.isEmpty then none
    else if digitsValue ds ≤ 2147483648 then some (-(digitsValue ds : Int)) else none
  | _ =>
    let ds := range.takeWhile Char.isDigit
    if ds.isEmpty then none
    else if digitsValue ds ≤ 2147483647 then some (digitsValue ds : Int) else none

/-- The function `Parser::scanFloatLiteral`, called with the cursor just
after `wholeStr`: the returned flag is its `bool` result. -/
def scanFloatLiteral (T : Tables) (wholeStr : Slot) (p : Parser) : Outcome (Bool × Parser) :=
  let c1 := consume T p.code p.r
  let period := c1.2
  let c2 := consume T p.code c1.1
  let decimal := c2.2
  if period.chars p.code = ['.'] ∧ (decimal.chars p.code).all Char.isDigit then
    match wholeStr.data, decimal.data with
    | some first, some d =>
      let range := (p.code.drop first).take (d + decimal.size - first)
      if T.doubleInRange range then
        .ok (true, { p with r := c2.1,
                            currentTok := { p.currentTok with defaultValue := some (.floating range) } })
      else .ok (false, p)
    | _, _ => .fault .invalidRange p
  else
    match fromCharsInt (wholeStr.chars p.code) with
    | some num =>
      .ok (true, { p with currentTok := { p.currentTok with defaultValue := some (.int num) } })
    | none => .ok (false, p)

/-- The function `Parser::scanToken`. -/
def scanToken (T : Tables) (p : Parser) : Outcome Parser :=
  let c := consume T p.code p.r
  let str := c.2
  let p1 : Parser := { p with r := c.1, currentTok := ⟨T.defaultType, none, Slot.empty⟩ }
  if str.size = 0 then
    .ok { p1 with currentTok := { p1.currentTok with type := T.END_OF_FIELD } }
  else
    let p2 : Parser := { p1 with currentTok := { p1.currentTok with code := str } }
    let operatorIndex := find T.OPERATOR_TOKENS (str.chars p.code)
    if operatorIndex < T.OPERATOR_TOKENS.length then
      .ok { p2 with currentTok := { p2.currentTok with type := operatorIndex } }
    else if (str.chars p.code).all Char.isDigit then
      (scanFloatLiteral T str p2).bind fun res =>
        .ok { res.2 with currentTok := { res.2.currentTok with type := T.PRIMITIVE } }
    else .ok p2

/-! ## Parser -/

/-- The function `Parser::parseTerminalNode`: a leaf for the current token,
which must be `PRIMITIVE`, then the next token is scanned.  For any other
token the C++ function has no `return` statement and no failure channel:
control reaches its end and the behaviour of the program is undefined from
there on.  The embedding marks that point with `missingReturn` and the state
in which it is reached; it does not describe what the program does next. -/
def parseTerminalNode (T : Tables) (p : Parser) : Outcome (AstNode × Parser) :=
  if p.currentTok.type = T.PRIMITIVE then
    (scanToken T p).bind fun p1 => .ok (.leaf p.currentTok, p1)
  else .fault .missingReturn p

/-- The `while` loop of `parseBinaryExpression`.  `recurse` is the recursive
call `parseBinaryExpression(precedence)`; `left` and `nodeType` are the local
variables at the loop test.  One unit of fuel per iteration. -/
def parseLoop (T : Tables) (recurse : Int → Parser → Outcome (AstNode × Parser))
    (previousTokenPrecedence : Int) :
    Nat → AstNode → Nat → Parser → Outcome (AstNode × Parser)
  | 0, _, _, p => .fault .outOfFuel p
  | fuel + 1, left, nodeType, p =>
    if T.OPERATOR_PRECEDENCE nodeType > previousTokenPrecedence then
      (scanToken T p).bind fun p1 =>
      (recurse (T.OPERATOR_PRECEDENCE nodeType) p1).bind fun res =>
        let left1 := AstNode.parent nodeType left res.1
        let nodeType1 := res.2.currentTok.type
        if nodeType1 = T.END_OF_FIELD then .ok (left1, res.2)
        else parseLoop T recurse previousTokenPrecedence fuel left1 nodeType1 res.2
    else .ok (left, p)

/-- The function `Parser::parseBinaryExpression`.  One unit of fuel per
call; the loop of a call with fuel `fuel + 1` gets fuel `fuel`. -/
def parseBinaryExpression (T : Tables) :
    Nat → Int → Parser → Outcome (AstNode × Parser)
  | 0, _, p => .fault .outOfFuel p
  | fuel + 1, previousTokenPrecedence, p =>
    (parseTerminalNode T p).bind fun res =>
      if res.2.currentTok.type = T.END_OF_FIELD then .ok res
      else parseLoop T (parseBinaryExpression T fuel) previousTokenPrecedence
             fuel res.1 res.2.currentTok.type res.2

/-- The parser constructed by `Parser(_code, _templatePos)`: cursor at the
start of the text, `currentTok` default-initialised. -/
def Parser.new (T : Tables) (code : List Char) : Parser :=
  ⟨code, 0, ⟨T.defaultType, none, Slot.empty⟩⟩

/-- The first two statements of `Parser::parse`: `scanToken()` and
`parseBinaryExpression(0)`, yielding `statement`.  The fuel `code.length + 2`
is enough for every text. -/
def parse (T : Tables) (code : List Char) : Outcome (AstNode × Parser) :=
  (scanToken T (Parser.new T code)).bind fun p =>
    parseBinaryExpression T (code.length + 2) 0 p

/-- Modelled from the spec: the evaluator `interpretAst` (declared outside
`parser.h`), for integer literals: a leaf is its literal value, a parent
applies the operator spelled `+`, `-` or `*`; anything else has no integer
value in this model. -/
def interpretAst (T : Tables) : AstNode → Option Int
  | .leaf tok =>
    match tok.defaultValue with
    | some (.int v) => some v
    | _ => none
  | .parent type left right =>
    match interpretAst T left, interpretAst T right with
    | some a, some b =>
      if T.OPERATOR_TOKENS.get? type = some ['+'] then some (a + b)
      else if T.OPERATOR_TOKENS.get? type = some ['-'] then some (a - b)
      else if T.OPERATOR_TOKENS.get? type = some ['*'] then some (a * b)
      else none
    | _, _ => none

/-- A table in the shape `token.h` is described by the spec: the four
arithmetic operators, `*` and `/` binding tighter than `+` and `-`, the
period an operator character without a spelling, `END_OF_FIELD` lowest. -/
def sampleTables : Tables where
  OPERATOR_CHARACTERS := ['+', '-', '*', '/', '=', '.']
  OPERATOR_TOKENS := [['+'], ['-'], ['*'], ['/']]
  OPERATOR_PRECEDENCE := fun k =>
    if k < 2 then 10 else if k < 4 then 20 else if k = 4 then 0 else -1
  PRIMITIVE := 4
  END_OF_FIELD := 5
  defaultType := 0
  doubleInRange := fun _ => true
  distinct := by decide

/-- Whether a run ended because the fuel of the embedding ran out. -/
def Outcome.ranOut {α : Type} : Outcome α → Bool
  | .fault .outOfFuel _ => true
  | _ => false

/-- The tokens produced by `n` successive calls of `scanToken`, in order. -/
def scanTokens (T : Tables) : Nat → Parser → Outcome (List Token)
  | 0, _ => .ok []
  | n + 1, p =>
    (scanToken T p).bind fun p1 =>
      (scanTokens T n p1).bind fun toks => .ok (p1.currentTok :: toks)

/-- In-order sequence of a tree: the token of every leaf and the operator
kind of every parent node, left to right. -/
def AstNode.inorder : AstNode → List (Token ⊕ Nat)
  | .leaf tok => [.inl tok]
  | .parent type left right => left.inorder ++ .inr type :: right.inorder

/-- A token sequence read as operands and operators in turn: the tokens at
even positions as they are, those at odd positions by their kind. -/
def alternate : List Token → List (Token ⊕ Nat)
  | [] => []
  | [t] => [.inl t]
  | t :: o :: rest => .inl t :: .inr o.type :: alternate rest

/-- The relation `Reads T p toks p'`: from the state `p`, the parser moves past
the tokens `toks` (the current tokens of `p` and of the states that
follow, one `scanToken` call after each) and is then in the state `p'`,
whose current token has not been moved past. -/
inductive Reads (T : Tables) : Parser → List Token → Parser → Prop where
  | nil (p : Parser) : Reads T p [] p
  | cons {p p1 p' : Parser} {toks : List Token} :
      scanToken T p = .ok p1 → Reads T p1 toks p' → Reads T p (p.currentTok :: toks) p'

/-- The leaf `makeLeaf` builds for the one-digit integer literal `a` scanned
at offset `pos`. -/
def digitLeaf (T : Tables) (a : Char) (pos : Nat) : AstNode :=
  .leaf ⟨T.PRIMITIVE, some (.int ((a.toNat - 48 : Nat) : Int)), ⟨some pos, 1⟩⟩

/-- Whether `c` belongs to the operator-symbol set. -/
def isOperatorSymbol (T : Tables) (c : Char) : Bool := isAnyOf c T.OPERATOR_CHARACTERS

/-- Whether `c` is a word character: neither whitespace nor an operator
symbol. -/
def isWordCharacter (T : Tables) (c : Char) : Bool :=
  !isAnyOf c WHITESPACE && !isAnyOf c T.OPERATOR_CHARACTERS

/-- The maximal run of the spec (4.1, step 2) at the start of `l`, whose
first character is not whitespace: the longest run of consecutive
operator symbols when the first character is an operator symbol, otherwise
the longest run of word characters.  This definition follows the words of
the spec, not the code of `consume`. -/
def maximalRun (T : Tables) : List Char → List Char
  | [] => []
  | c :: rest =>
    if isOperatorSymbol T c then c :: rest.takeWhile (isOperatorSymbol T)
    else c :: rest.takeWhile (isWordCharacter T)

/-- The operator kind of the root of a tree, when the root is a parent
node. -/
def AstNode.rootOp : AstNode → Option Nat
  | .leaf _ => none
  | .parent type _ _ => some type

/-- The operator kinds of all parent nodes of a tree, in order. -/
def AstNode.operators : AstNode → List Nat
  | .leaf _ => []
  | .parent type left right => left.operators ++ type :: right.operators

/-- The tokens of all leaves of a tree, in order. -/
def AstNode.leaves : AstNode → List Token
  | .leaf tok => [tok]
  | .parent _ left right => left.leaves ++ right.leaves

/-- The operator kinds on the left spine of a tree, innermost first.  In a
tree returned by a call of `parseBinaryExpression` these are the operators
consumed by the loop of that call itself: every iteration makes the tree
built so far the left child of a new parent node. -/
def AstNode.leftSpine : AstNode → List Nat
  | .leaf _ => []
  | .parent type left _ => left.leftSpine ++ [type]

/-- The grouping invariant of a tree: at every parent node with operator
`o`, a right child that is a parent node has an operator of binding power
strictly above that of `o`, and a left child that is a parent node has an
operator of binding power at least that of `o`. -/
def AstNode.grouped (T : Tables) : AstNode → Bool
  | .leaf _ => true
  | .parent type left right =>
    (left.rootOp.all fun kl => decide (T.OPERATOR_PRECEDENCE type ≤ T.OPERATOR_PRECEDENCE kl)) &&
    (right.rootOp.all fun kr => decide (T.OPERATOR_PRECEDENCE type < T.OPERATOR_PRECEDENCE kr)) &&
    left.grouped T && right.grouped T

/-! ## The tokenizer with its dereferences recorded

`skipws` and `consume` once more, written on offsets as in the source, with
every test `r == code.end()` explicit and every dereference of the cursor
recorded: the second component of the result lists the offsets that are
dereferenced, in order.  `code.getD r default` is the character read at
offset `r`; at an offset that is not before the end of the text the read
has no meaning, and the offset shows in the list. -/

/-- The loop `while (isAnyOf(*r, WHITESPACE)) { r++; if (r == code.end()) return r; }`
of `skipws`, entered at the cursor `r`. -/
def skipwsLoopTrace (code : List Char) : Nat → Nat → Nat × List Nat
  | 0, r => (r, [])
  | fuel + 1, r =>
    if isAnyOf (code.getD r default) WHITESPACE then
      if r + 1 = code.length then (r + 1, [r])
      else ((skipwsLoopTrace code fuel (r + 1)).1, r :: (skipwsLoopTrace code fuel (r + 1)).2)
    else (r, [r])

/-- The function `Parser::skipws` with its dereferences. -/
def skipwsTrace (code : List Char) (r : Nat) : Nat × List Nat :=
  if r = code.length then (r, [])
  else skipwsLoopTrace code (code.length - r) r

/-- The loop `while (check(*r)) { r++; if (r == code.end()) return r; slot = ...(&*r); }`
of `consume`, entered at the cursor `r`. -/
def consumeLoopTrace (T : Tables) (operatorRun : Bool) (code : List Char) :
    Nat → Nat → Slot → (Nat × Slot) × List Nat
  | 0, r, slot => ((r, slot), [])
  | fuel + 1, r, slot =>
    if check T operatorRun (code.getD r default) then
      if r + 1 = code.length then ((r + 1, slot), [r])
      else
        ((consumeLoopTrace T operatorRun code fuel (r + 1) (slot.upTo (r + 1))).1,
          r :: (r + 1) :: (consumeLoopTrace T operatorRun code fuel (r + 1) (slot.upTo (r + 1))).2)
    else ((r, slot), [r])

/-- The function `Parser::consume` with its dereferences: those of `skipws`,
the one of `&*r` when the slot is started, the one of `slot[0]`, and those
of the loop. -/
def consumeTrace (T : Tables) (code : List Char) (r : Nat) : (Nat × Slot) × List Nat :=
  let s := skipwsTrace code r
  if s.1 = code.length then ((s.1, Slot.empty), s.2)
  else if s.1 + 1 = code.length then ((s.1 + 1, ⟨some s.1, 1⟩), s.2 ++ [s.1])
  else
    ((consumeLoopTrace T (isAnyOf (code.getD s.1 default) T.OPERATOR_CHARACTERS) code
        (code.length - (s.1 + 1)) (s.1 + 1) ⟨some s.1, 1⟩).1,
      s.2 ++ s.1 :: s.1 ::
        (consumeLoopTrace T (isAnyOf (code.getD s.1 default) T.OPERATOR_CHARACTERS) code
          (code.length - (s.1 + 1)) (s.1 + 1) ⟨some s.1, 1⟩).2)

/-! # Theorems -/

/-! ## Raw tokens of length one -/

theorem skipws_of_head {code : List Char} {r : Nat} {c : Char} {rest : List Char}
    (h : code.drop r = c :: rest) (hc : isAnyOf c WHITESPACE = false) :
    skipws code r = r := by
  simp [skipws, h, skipwsLoop, hc]

theorem skipws_of_nil {code : List Char} {r : Nat} (h : code.drop r = []) :
    skipws code r = r := by
  simp [skipws, h, skipwsLoop]

theorem consume_of_nil (T : Tables) {code : List Char} {r : Nat} (h : code.drop r = []) :
    consume T code r = (r, Slot.empty) := by
  simp [consume, skipws_of_nil h, h]

theorem consume_last (T : Tables) {code : List Char} {r : Nat} {c : Char}
    (h : code.drop r = [c]) (hc : isAnyOf c WHITESPACE = false) :
    consume T code r = (r + 1, ⟨some r, 1⟩) := by
  simp [consume, skipws_of_head h hc, h]

theorem consume_single (T : Tables) {code : List Char} {r : Nat} {c d : Char} {rest : List Char}
    (h : code.drop r = c :: d :: rest) (hc : isAnyOf c WHITESPACE = false)
    (hd : check T (isAnyOf c T.OPERATOR_CHARACTERS) d = false) :
    consume T code r = (r + 1, ⟨some r, 1⟩) := by
  simp [consume, skipws_of_head h hc, h, consumeLoop, hd]

theorem chars_single {code : List Char} {r : Nat} {c : Char} {rest : List Char}
    (h : code.drop r = c :: rest) : Slot.chars code ⟨some r, 1⟩ = [c] := by
  simp [Slot.chars, h]

theorem drop_succ_of_drop {code : List Char} {r : Nat} {c : Char} {rest : List Char}
    (h : code.drop r = c :: rest) : code.drop (r + 1) = rest := by
  have := List.drop_drop 1 r code
  rw [h] at this
  simpa [Nat.add_comm] using this.symm

theorem isAnyOf_whitespace_of_isDigit {c : Char} (h : c.isDigit = true) :
    isAnyOf c WHITESPACE = false := by
  simp only [isAnyOf, WHITESPACE, decide_eq_false_iff_not, List.mem_cons, List.mem_singleton,
    List.not_mem_nil, or_false, not_or]
  refine ⟨?_, ?_, ?_⟩ <;> rintro rfl <;> simp [Char.isDigit] at h

theorem find_le (l : List (List Char)) (s : List Char) : find l s ≤ l.length := by
  induction l with
  | nil => simp [find]
  | cons x xs ih => by_cases h : x = s <;> simp [find, h]; omega

theorem find_lt_iff (l : List (List Char)) (s : List Char) : find l s < l.length ↔ s ∈ l := by
  induction l with
  | nil => simp [find]
  | cons x xs ih =>
    by_cases h : x = s
    · simp [find, h]
    · have h2 : ¬ s = x := fun e => h e.symm
      simp [find, h, h2, ih]

theorem find_get (l : List (List Char)) (s : List Char) (h : s ∈ l) :
    l[find l s]? = some s := by
  induction l with
  | nil => simp at h
  | cons x xs ih =>
    by_cases hx : x = s
    · simp [find, hx]
    · have h2 : ¬ s = x := fun e => hx e.symm
      simp [h2] at h
      simpa [find, hx] using ih h

/-- A raw token that is a registered spelling becomes the operator token of
its index; the cursor is where `consume` left it. -/
theorem scanToken_of_spelling (T : Tables) (p : Parser)
    (hsize : (consume T p.code p.r).2.size ≠ 0)
    (hmem : (consume T p.code p.r).2.chars p.code ∈ T.OPERATOR_TOKENS) :
    scanToken T p = .ok ⟨p.code, (consume T p.code p.r).1,
      ⟨find T.OPERATOR_TOKENS ((consume T p.code p.r).2.chars p.code), none,
       (consume T p.code p.r).2⟩⟩ := by
  simp [scanToken, hsize, (find_lt_iff _ _).mpr hmem]

/-- An all-digit raw token whose lookahead is not a period followed by
digits becomes a `PRIMITIVE` token holding the result of the integer
conversion; the cursor is where `consume` left it. -/
theorem scanToken_of_integer (T : Tables) (p : Parser)
    (hsize : (consume T p.code p.r).2.size ≠ 0)
    (hmem : (consume T p.code p.r).2.chars p.code ∉ T.OPERATOR_TOKENS)
    (hdig : ((consume T p.code p.r).2.chars p.code).all Char.isDigit = true)
    (hlook : ¬ ((consume T p.code (consume T p.code p.r).1).2.chars p.code = ['.'] ∧
      ((consume T p.code (consume T p.code (consume T p.code p.r).1).1).2.chars p.code).all
        Char.isDigit = true)) :
    scanToken T p = .ok ⟨p.code, (consume T p.code p.r).1,
      ⟨T.PRIMITIVE, (fromCharsInt ((consume T p.code p.r).2.chars p.code)).map Literal.int,
       (consume T p.code p.r).2⟩⟩ := by
  have hidx : ¬ find T.OPERATOR_TOKENS ((consume T p.code p.r).2.chars p.code) < T.OPERATOR_TOKENS.length :=
    fun hlt => hmem ((find_lt_iff _ _).mp hlt)
  simp only [scanToken, hsize, hidx, hdig, if_false, if_true, scanFloatLiteral, hlook]
  cases hfc : fromCharsInt ((consume T p.code p.r).2.chars p.code) <;> simp [Outcome.bind]

theorem fromCharsInt_single {c : Char} (h : c.isDigit = true) :
    fromCharsInt [c] = some ((c.toNat - 48 : Nat) : Int) := by
  have hne : c ≠ '-' := by rintro rfl; simp [Char.isDigit] at h
  have hle : c.toNat - 48 ≤ 2147483647 := by
    simp [Char.isDigit] at h
    have : c.toNat ≤ 57 := by
      have := h.2
      simpa [Char.toNat] using this
    omega
  unfold fromCharsInt
  split
  · rename_i rest heq
    simp at heq
    exact absurd heq.1 hne
  · simp [List.takeWhile, h, digitsValue, hle]

/-! ## Scanning one-character tokens -/

theorem isAnyOf_eq_true_iff {c : Char} {s : List Char} : isAnyOf c s = true ↔ c ∈ s := by
  simp [isAnyOf]

theorem isAnyOf_eq_false_iff {c : Char} {s : List Char} : isAnyOf c s = false ↔ c ∉ s := by
  simp [isAnyOf]

/-- At the end of the text `scanToken` yields `END_OF_FIELD` and stays. -/
theorem scanToken_at_end (T : Tables) (p : Parser) (h : p.code.drop p.r = []) :
    scanToken T p = .ok ⟨p.code, p.r, ⟨T.END_OF_FIELD, none, Slot.empty⟩⟩ := by
  simp [scanToken, consume_of_nil T h, Slot.empty]

/-- A one-character operator spelling followed by a character that is not an
operator character is scanned as the operator of its index. -/
theorem scanToken_operator_char (T : Tables) (p : Parser) {o d : Char} {rest : List Char}
    (h : p.code.drop p.r = o :: d :: rest)
    (ho : o ∈ T.OPERATOR_CHARACTERS) (hws : o ∉ WHITESPACE)
    (hd : d ∉ T.OPERATOR_CHARACTERS) (hmem : [o] ∈ T.OPERATOR_TOKENS) :
    scanToken T p = .ok ⟨p.code, p.r + 1, ⟨find T.OPERATOR_TOKENS [o], none, ⟨some p.r, 1⟩⟩⟩ := by
  have hc : consume T p.code p.r = (p.r + 1, ⟨some p.r, 1⟩) :=
    consume_single T h (isAnyOf_eq_false_iff.mpr hws)
      (by simp [check, isAnyOf_eq_true_iff.mpr ho, isAnyOf_eq_false_iff.mpr hd])
  have h1 := scanToken_of_spelling T p (by simp [hc]) (by simp [hc, chars_single h, hmem])
  simpa [hc, chars_single h] using h1

/-- A digit followed by a one-character operator other than the period, and
then by a character that is not an operator character, is scanned as the
integer literal of that digit; the cursor is just after the digit. -/
theorem scanToken_digit_before_operator (T : Tables) (p : Parser) {a o d : Char}
    {rest : List Char} (h : p.code.drop p.r = a :: o :: d :: rest)
    (ha : a.isDigit = true) (ha2 : a ∉ T.OPERATOR_CHARACTERS) (hnot : [a] ∉ T.OPERATOR_TOKENS)
    (ho : o ∈ T.OPERATOR_CHARACTERS) (hws : o ∉ WHITESPACE) (hperiod : o ≠ '.')
    (hd : d ∉ T.OPERATOR_CHARACTERS) :
    scanToken T p = .ok ⟨p.code, p.r + 1,
      ⟨T.PRIMITIVE, some (.int ((a.toNat - 48 : Nat) : Int)), ⟨some p.r, 1⟩⟩⟩ := by
  have hc : consume T p.code p.r = (p.r + 1, ⟨some p.r, 1⟩) :=
    consume_single T h (isAnyOf_whitespace_of_isDigit ha)
      (by simp [check, isAnyOf_eq_false_iff.mpr ha2, isAnyOf_eq_true_iff.mpr ho])
  have hc1 : consume T p.code (p.r + 1) = (p.r + 1 + 1, ⟨some (p.r + 1), 1⟩) :=
    consume_single T (drop_succ_of_drop h) (isAnyOf_eq_false_iff.mpr hws)
      (by simp [check, isAnyOf_eq_true_iff.mpr ho, isAnyOf_eq_false_iff.mpr hd])
  have h1 := scanToken_of_integer T p (by simp [hc]) (by simp [hc, chars_single h, hnot])
    (by simp [hc, chars_single h, ha])
    (by simp [hc, hc1, chars_single (drop_succ_of_drop h), hperiod])
  simpa [hc, chars_single h, fromCharsInt_single ha] using h1

/-- A digit that is the last character of the text is scanned as the integer
literal of that digit; the cursor is at the end of the text. -/
theorem scanToken_digit_last (T : Tables) (p : Parser) {a : Char}
    (h : p.code.drop p.r = [a])
    (ha : a.isDigit = true) (hnot : [a] ∉ T.OPERATOR_TOKENS) :
    scanToken T p = .ok ⟨p.code, p.r + 1,
      ⟨T.PRIMITIVE, some (.int ((a.toNat - 48 : Nat) : Int)), ⟨some p.r, 1⟩⟩⟩ := by
  have hc : consume T p.code p.r = (p.r + 1, ⟨some p.r, 1⟩) :=
    consume_last T h (isAnyOf_whitespace_of_isDigit ha)
  have hc1 : consume T p.code (p.r + 1) = (p.r + 1, Slot.empty) :=
    consume_of_nil T (drop_succ_of_drop h)
  have h1 := scanToken_of_integer T p (by simp [hc]) (by simp [hc, chars_single h, hnot])
    (by simp [hc, chars_single h, ha])
    (by simp [hc, hc1, Slot.chars, Slot.empty])
  simpa [hc, chars_single h, fromCharsInt_single ha] using h1

/-! ## Precedence and associativity on `a op1 b op2 c` -/

theorem scan_abc (T : Tables) (a b c op1 op2 : Char)
    (ha : a.isDigit = true) (hb : b.isDigit = true) (hc : c.isDigit = true)
    (ha2 : a ∉ T.OPERATOR_CHARACTERS) (hb2 : b ∉ T.OPERATOR_CHARACTERS)
    (hc2 : c ∉ T.OPERATOR_CHARACTERS)
    (ha3 : [a] ∉ T.OPERATOR_TOKENS) (hb3 : [b] ∉ T.OPERATOR_TOKENS)
    (hc3 : [c] ∉ T.OPERATOR_TOKENS)
    (ho1 : op1 ∈ T.OPERATOR_CHARACTERS) (ho2 : op2 ∈ T.OPERATOR_CHARACTERS)
    (hw1 : op1 ∉ WHITESPACE) (hw2 : op2 ∉ WHITESPACE)
    (hp1 : op1 ≠ '.') (hp2 : op2 ≠ '.')
    (h1 : [op1] ∈ T.OPERATOR_TOKENS) (h2 : [op2] ∈ T.OPERATOR_TOKENS) (t : Token) :
    scanToken T ⟨[a, op1, b, op2, c], 0, t⟩ = .ok ⟨[a, op1, b, op2, c], 1,
        ⟨T.PRIMITIVE, some (.int ((a.toNat - 48 : Nat) : Int)), ⟨some 0, 1⟩⟩⟩ ∧
    scanToken T ⟨[a, op1, b, op2, c], 1, t⟩ = .ok ⟨[a, op1, b, op2, c], 2,
        ⟨find T.OPERATOR_TOKENS [op1], none, ⟨some 1, 1⟩⟩⟩ ∧
    scanToken T ⟨[a, op1, b, op2, c], 2, t⟩ = .ok ⟨[a, op1, b, op2, c], 3,
        ⟨T.PRIMITIVE, some (.int ((b.toNat - 48 : Nat) : Int)), ⟨some 2, 1⟩⟩⟩ ∧
    scanToken T ⟨[a, op1, b, op2, c], 3, t⟩ = .ok ⟨[a, op1, b, op2, c], 4,
        ⟨find T.OPERATOR_TOKENS [op2], none, ⟨some 3, 1⟩⟩⟩ ∧
    scanToken T ⟨[a, op1, b, op2, c], 4, t⟩ = .ok ⟨[a, op1, b, op2, c], 5,
        ⟨T.PRIMITIVE, some (.int ((c.toNat - 48 : Nat) : Int)), ⟨some 4, 1⟩⟩⟩ ∧
    scanToken T ⟨[a, op1, b, op2, c], 5, t⟩ = .ok ⟨[a, op1, b, op2, c], 5,
        ⟨T.END_OF_FIELD, none, Slot.empty⟩⟩ := by
  refine ⟨?_, ?_, ?_, ?_, ?_, ?_⟩
  · exact scanToken_digit_before_operator T ⟨[a, op1, b, op2, c], 0, t⟩
      (show List.drop 0 [a, op1, b, op2, c] = a :: op1 :: b :: [op2, c] from rfl)
      ha ha2 ha3 ho1 hw1 hp1 hb2
  · exact scanToken_operator_char T ⟨[a, op1, b, op2, c], 1, t⟩
      (show List.drop 1 [a, op1, b, op2, c] = op1 :: b :: [op2, c] from rfl) ho1 hw1 hb2 h1
  · exact scanToken_digit_before_operator T ⟨[a, op1, b, op2, c], 2, t⟩
      (show List.drop 2 [a, op1, b, op2, c] = b :: op2 :: c :: [] from rfl)
      hb hb2 hb3 ho2 hw2 hp2 hc2
  · exact scanToken_operator_char T ⟨[a, op1, b, op2, c], 3, t⟩
      (show List.drop 3 [a, op1, b, op2, c] = op2 :: c :: [] from rfl) ho2 hw2 hc2 h2
  · exact scanToken_digit_last T ⟨[a, op1, b, op2, c], 4, t⟩
      (show List.drop 4 [a, op1, b, op2, c] = [c] from rfl) hc hc3
  · exact scanToken_at_end T ⟨[a, op1, b, op2, c], 5, t⟩
      (show List.drop 5 [a, op1, b, op2, c] = [] from rfl)

/-- The same, from the assumptions made on the tables: digits are not
operator characters, operator characters are not whitespace, spellings are
made of operator characters, and the period is not a spelling. -/
theorem scan_abc_of_tables (T : Tables) (a b c op1 op2 : Char)
    (ha : a.isDigit = true) (hb : b.isDigit = true) (hc : c.isDigit = true)
    (hdig : ∀ d : Char, d.isDigit = true → d ∉ T.OPERATOR_CHARACTERS)
    (hws : ∀ o ∈ T.OPERATOR_CHARACTERS, o ∉ WHITESPACE)
    (hspell : ∀ s ∈ T.OPERATOR_TOKENS, ∀ x ∈ s, x ∈ T.OPERATOR_CHARACTERS)
    (hperiod : ['.'] ∉ T.OPERATOR_TOKENS)
    (h1 : [op1] ∈ T.OPERATOR_TOKENS) (h2 : [op2] ∈ T.OPERATOR_TOKENS) (t : Token) :
    scanToken T ⟨[a, op1, b, op2, c], 0, t⟩ = .ok ⟨[a, op1, b, op2, c], 1,
        ⟨T.PRIMITIVE, some (.int ((a.toNat - 48 : Nat) : Int)), ⟨some 0, 1⟩⟩⟩ ∧
    scanToken T ⟨[a, op1, b, op2, c], 1, t⟩ = .ok ⟨[a, op1, b, op2, c], 2,
        ⟨find T.OPERATOR_TOKENS [op1], none, ⟨some 1, 1⟩⟩⟩ ∧
    scanToken T ⟨[a, op1, b, op2, c], 2, t⟩ = .ok ⟨[a, op1, b, op2, c], 3,
        ⟨T.PRIMITIVE, some (.int ((b.toNat - 48 : Nat) : Int)), ⟨some 2, 1⟩⟩⟩ ∧
    scanToken T ⟨[a, op1, b, op2, c], 3, t⟩ = .ok ⟨[a, op1, b, op2, c], 4,
        ⟨find T.OPERATOR_TOKENS [op2], none, ⟨some 3, 1⟩⟩⟩ ∧
    scanToken T ⟨[a, op1, b, op2, c], 4, t⟩ = .ok ⟨[a, op1, b, op2, c], 5,
        ⟨T.PRIMITIVE, some (.int ((c.toNat - 48 : Nat) : Int)), ⟨some 4, 1⟩⟩⟩ ∧
    scanToken T ⟨[a, op1, b, op2, c], 5, t⟩ = .ok ⟨[a, op1, b, op2, c], 5,
        ⟨T.END_OF_FIELD, none, Slot.empty⟩⟩ := by
  have ho1 : op1 ∈ T.OPERATOR_CHARACTERS := hspell _ h1 _ (by simp)
  have ho2 : op2 ∈ T.OPERATOR_CHARACTERS := hspell _ h2 _ (by simp)
  have hnd : ∀ d : Char, d.isDigit = true → [d] ∉ T.OPERATOR_TOKENS :=
    fun d hd hm => hdig d hd (hspell _ hm _ (by simp))
  have hp1 : op1 ≠ '.' := by rintro rfl; exact hperiod h1
  have hp2 : op2 ≠ '.' := by rintro rfl; exact hperiod h2
  exact scan_abc T a b c op1 op2 ha hb hc (hdig a ha) (hdig b hb) (hdig c hc) (hnd a ha)
    (hnd b hb) (hnd c hc) ho1 ho2 (hws _ ho1) (hws _ ho2) hp1 hp2 h1 h2 t

/-- C1. Precedence is respected: for digits `a b c` and registered
one-character spellings `op1 op2` with
`0 < bindingPower op1 < bindingPower op2`, `scanToken` followed by
`parseBinaryExpression(0)` on `a op1 b op2 c` returns
`BinaryOp(op1, Leaf a, BinaryOp(op2, Leaf b, Leaf c))` with the tokenizer at
`END_OF_FIELD`; for `1+2*3` with the sample table the tree is `1+(2*3)` and
its value is 7.  Assumptions on the tables: digits are not operator
characters, operator characters are not whitespace, spellings consist of
operator characters, the period is not a spelling, and `END_OF_FIELD` has
binding power at most 0. -/
theorem precedence_respected (T : Tables) (a b c op1 op2 : Char)
    (ha : a.isDigit = true) (hb : b.isDigit = true) (hc : c.isDigit = true)
    (hdig : ∀ d : Char, d.isDigit = true → d ∉ T.OPERATOR_CHARACTERS)
    (hws : ∀ o ∈ T.OPERATOR_CHARACTERS, o ∉ WHITESPACE)
    (hspell : ∀ s ∈ T.OPERATOR_TOKENS, ∀ x ∈ s, x ∈ T.OPERATOR_CHARACTERS)
    (hperiod : ['.'] ∉ T.OPERATOR_TOKENS)
    (h1 : [op1] ∈ T.OPERATOR_TOKENS) (h2 : [op2] ∈ T.OPERATOR_TOKENS)
    (heof : T.OPERATOR_PRECEDENCE T.END_OF_FIELD ≤ 0)
    (hpos : 0 < T.OPERATOR_PRECEDENCE (find T.OPERATOR_TOKENS [op1]))
    (hlt : T.OPERATOR_PRECEDENCE (find T.OPERATOR_TOKENS [op1]) <
      T.OPERATOR_PRECEDENCE (find T.OPERATOR_TOKENS [op2])) :
    parse T [a, op1, b, op2, c] =
      .ok (.parent (find T.OPERATOR_TOKENS [op1]) (digitLeaf T a 0)
            (.parent (find T.OPERATOR_TOKENS [op2]) (digitLeaf T b 2) (digitLeaf T c 4)),
           ⟨[a, op1, b, op2, c], 5, ⟨T.END_OF_FIELD, none, Slot.empty⟩⟩) ∧
    (parse sampleTables ['1', '+', '2', '*', '3']).bind
        (fun res => .ok (interpretAst sampleTables res.1)) = .ok (some 7) := by
  refine ⟨?_, by decide⟩
  have hs := scan_abc_of_tables T a b c op1 op2 ha hb hc hdig hws hspell hperiod h1 h2
  have s0 := fun t => (hs t).1
  have s1 := fun t => (hs t).2.1
  have s2 := fun t => (hs t).2.2.1
  have s3 := fun t => (hs t).2.2.2.1
  have s4 := fun t => (hs t).2.2.2.2.1
  have s5 := fun t => (hs t).2.2.2.2.2
  have hk1 : find T.OPERATOR_TOKENS [op1] ≠ T.END_OF_FIELD := by
    intro h; rw [h] at hpos; omega
  have hk2 : find T.OPERATOR_TOKENS [op2] ≠ T.END_OF_FIELD := by
    intro h; rw [h] at hlt; omega
  have hd := T.distinct
  simp [parse, Parser.new, parseBinaryExpression, parseLoop, parseTerminalNode, Outcome.bind,
    s0, s1, s2, s3, s4, s5, hk1, hk2, hd, hpos, hlt, digitLeaf]

theorem sampleTables_digits :
    ∀ d : Char, d.isDigit = true → d ∉ sampleTables.OPERATOR_CHARACTERS := by
  intro d hd hm
  simp only [sampleTables, List.mem_cons, List.mem_singleton, List.not_mem_nil, or_false] at hm
  rcases hm with rfl | rfl | rfl | rfl | rfl | rfl <;> simp [Char.isDigit] at hd

theorem sampleTables_whitespace : ∀ o ∈ sampleTables.OPERATOR_CHARACTERS, o ∉ WHITESPACE := by
  decide

theorem sampleTables_spellings :
    ∀ s ∈ sampleTables.OPERATOR_TOKENS, ∀ x ∈ s, x ∈ sampleTables.OPERATOR_CHARACTERS := by
  decide

/-- Instance of `precedence_respected` at `1+2*3` with the sample table. -/
theorem precedence_respected_witness :
    parse sampleTables ['1', '+', '2', '*', '3'] =
      .ok (.parent 0 (digitLeaf sampleTables '1' 0)
            (.parent 2 (digitLeaf sampleTables '2' 2) (digitLeaf sampleTables '3' 4)),
           ⟨['1', '+', '2', '*', '3'], 5, ⟨sampleTables.END_OF_FIELD, none, Slot.empty⟩⟩) ∧
    (parse sampleTables ['1', '+', '2', '*', '3']).bind
        (fun res => .ok (interpretAst sampleTables res.1)) = .ok (some 7) :=
  precedence_respected sampleTables '1' '2' '3' '+' '*' (by decide) (by decide) (by decide)
    sampleTables_digits sampleTables_whitespace sampleTables_spellings (by decide) (by decide)
    (by decide) (by decide) (by decide) (by decide)

/-- C2. Operators are left-associative: for digits `a b c` and registered
one-character spellings `op1 op2` with
`0 < bindingPower op2 ≤ bindingPower op1`, `scanToken` followed by
`parseBinaryExpression(0)` on `a op1 b op2 c` returns
`BinaryOp(op2, BinaryOp(op1, Leaf a, Leaf b), Leaf c)` with the tokenizer at
`END_OF_FIELD`; for `8-3-2` with the sample table the tree is `(8-3)-2` and
its value is 3.  Assumptions on the tables: digits are not operator
characters, operator characters are not whitespace, spellings consist of
operator characters, the period is not a spelling, and `END_OF_FIELD` has
binding power at most 0. -/
theorem left_associative (T : Tables) (a b c op1 op2 : Char)
    (ha : a.isDigit = true) (hb : b.isDigit = true) (hc : c.isDigit = true)
    (hdig : ∀ d : Char, d.isDigit = true → d ∉ T.OPERATOR_CHARACTERS)
    (hws : ∀ o ∈ T.OPERATOR_CHARACTERS, o ∉ WHITESPACE)
    (hspell : ∀ s ∈ T.OPERATOR_TOKENS, ∀ x ∈ s, x ∈ T.OPERATOR_CHARACTERS)
    (hperiod : ['.'] ∉ T.OPERATOR_TOKENS)
    (h1 : [op1] ∈ T.OPERATOR_TOKENS) (h2 : [op2] ∈ T.OPERATOR_TOKENS)
    (heof : T.OPERATOR_PRECEDENCE T.END_OF_FIELD ≤ 0)
    (hpos : 0 < T.OPERATOR_PRECEDENCE (find T.OPERATOR_TOKENS [op2]))
    (hle : T.OPERATOR_PRECEDENCE (find T.OPERATOR_TOKENS [op2]) ≤
      T.OPERATOR_PRECEDENCE (find T.OPERATOR_TOKENS [op1])) :
    parse T [a, op1, b, op2, c] =
      .ok (.parent (find T.OPERATOR_TOKENS [op2])
            (.parent (find T.OPERATOR_TOKENS [op1]) (digitLeaf T a 0) (digitLeaf T b 2))
            (digitLeaf T c 4),
           ⟨[a, op1, b, op2, c], 5, ⟨T.END_OF_FIELD, none, Slot.empty⟩⟩) ∧
    (parse sampleTables ['8', '-', '3', '-', '2']).bind
        (fun res => .ok (interpretAst sampleTables res.1)) = .ok (some 3) := by
  refine ⟨?_, by decide⟩
  have hs := scan_abc_of_tables T a b c op1 op2 ha hb hc hdig hws hspell hperiod h1 h2
  have s0 := fun t => (hs t).1
  have s1 := fun t => (hs t).2.1
  have s2 := fun t => (hs t).2.2.1
  have s3 := fun t => (hs t).2.2.2.1
  have s4 := fun t => (hs t).2.2.2.2.1
  have s5 := fun t => (hs t).2.2.2.2.2
  have hpos1 : 0 < T.OPERATOR_PRECEDENCE (find T.OPERATOR_TOKENS [op1]) := by omega
  have hk1 : find T.OPERATOR_TOKENS [op1] ≠ T.END_OF_FIELD := by
    intro h; rw [h] at hpos1; omega
  have hk2 : find T.OPERATOR_TOKENS [op2] ≠ T.END_OF_FIELD := by
    intro h; rw [h] at hpos; omega
  have hd := T.distinct
  have hnot : ¬ T.OPERATOR_PRECEDENCE (find T.OPERATOR_TOKENS [op1]) <
      T.OPERATOR_PRECEDENCE (find T.OPERATOR_TOKENS [op2]) := by omega
  simp [parse, Parser.new, parseBinaryExpression, parseLoop, parseTerminalNode, Outcome.bind,
    s0, s1, s2, s3, s4, s5, hk1, hk2, hd, hpos, hpos1, hnot, digitLeaf]

/-- Instance of `left_associative` at `8-3-2` with the sample table. -/
theorem left_associative_witness :
    parse sampleTables ['8', '-', '3', '-', '2'] =
      .ok (.parent 1 (.parent 1 (digitLeaf sampleTables '8' 0) (digitLeaf sampleTables '3' 2))
            (digitLeaf sampleTables '2' 4),
           ⟨['8', '-', '3', '-', '2'], 5, ⟨sampleTables.END_OF_FIELD, none, Slot.empty⟩⟩) ∧
    (parse sampleTables ['8', '-', '3', '-', '2']).bind
        (fun res => .ok (interpretAst sampleTables res.1)) = .ok (some 3) :=
  left_associative sampleTables '8' '3' '2' '-' '-' (by decide) (by decide) (by decide)
    sampleTables_digits sampleTables_whitespace sampleTables_spellings (by decide) (by decide)
    (by decide) (by decide) (by decide) (by decide)

/-- C4. Tokenizing `1+2*3`: when `+` and `*` are registered spellings and
operator characters, and a digit is neither an operator character nor a
spelling, six calls of `scanToken` from a fresh cursor yield `PRIMITIVE` 1,
the kind of `+`, `PRIMITIVE` 2, the kind of `*`, `PRIMITIVE` 3 and
`END_OF_FIELD`. -/
theorem tokens_of_1_plus_2_times_3 (T : Tables)
    (hplus : ['+'] ∈ T.OPERATOR_TOKENS) (htimes : ['*'] ∈ T.OPERATOR_TOKENS)
    (hpc : '+' ∈ T.OPERATOR_CHARACTERS) (htc : '*' ∈ T.OPERATOR_CHARACTERS)
    (hdig : ∀ d : Char, d.isDigit = true → d ∉ T.OPERATOR_CHARACTERS)
    (hnum : ∀ d : Char, d.isDigit = true → [d] ∉ T.OPERATOR_TOKENS) :
    scanTokens T 6 (Parser.new T ['1', '+', '2', '*', '3']) =
      .ok [⟨T.PRIMITIVE, some (.int 1), ⟨some 0, 1⟩⟩,
           ⟨find T.OPERATOR_TOKENS ['+'], none, ⟨some 1, 1⟩⟩,
           ⟨T.PRIMITIVE, some (.int 2), ⟨some 2, 1⟩⟩,
           ⟨find T.OPERATOR_TOKENS ['*'], none, ⟨some 3, 1⟩⟩,
           ⟨T.PRIMITIVE, some (.int 3), ⟨some 4, 1⟩⟩,
           ⟨T.END_OF_FIELD, none, Slot.empty⟩] := by
  have hs := scan_abc T '1' '2' '3' '+' '*' (by decide) (by decide) (by decide)
    (hdig _ (by decide)) (hdig _ (by decide)) (hdig _ (by decide))
    (hnum _ (by decide)) (hnum _ (by decide)) (hnum _ (by decide))
    hpc htc (by decide) (by decide) (by decide) (by decide) hplus htimes
  have s0 := fun t => (hs t).1
  have s1 := fun t => (hs t).2.1
  have s2 := fun t => (hs t).2.2.1
  have s3 := fun t => (hs t).2.2.2.1
  have s4 := fun t => (hs t).2.2.2.2.1
  have s5 := fun t => (hs t).2.2.2.2.2
  simp [scanTokens, Parser.new, Outcome.bind, s0, s1, s2, s3, s4, s5]

/-- Instance of `tokens_of_1_plus_2_times_3` with the sample table. -/
theorem tokens_of_1_plus_2_times_3_witness :
    scanTokens sampleTables 6 (Parser.new sampleTables ['1', '+', '2', '*', '3']) =
      .ok [⟨4, some (.int 1), ⟨some 0, 1⟩⟩, ⟨0, none, ⟨some 1, 1⟩⟩,
           ⟨4, some (.int 2), ⟨some 2, 1⟩⟩, ⟨2, none, ⟨some 3, 1⟩⟩,
           ⟨4, some (.int 3), ⟨some 4, 1⟩⟩, ⟨5, none, Slot.empty⟩] :=
  tokens_of_1_plus_2_times_3 sampleTables (by decide) (by decide) (by decide) (by decide)
    sampleTables_digits
    (fun d hd hm => sampleTables_digits d hd (sampleTables_spellings _ hm _ (by simp)))

/-! ## Whitespace and progress of the cursor -/

theorem skipwsLoop_spec (l : List Char) (r : Nat) :
    r ≤ skipwsLoop l r ∧ skipwsLoop l r ≤ r + l.length ∧
    l.drop (skipwsLoop l r - r) = l.dropWhile (fun c => isAnyOf c WHITESPACE) := by
  induction l generalizing r with
  | nil => simp [skipwsLoop]
  | cons c rest ih =>
    by_cases hc : isAnyOf c WHITESPACE = true
    · obtain ⟨h1, h2, h3⟩ := ih (r + 1)
      have e : skipwsLoop rest (r + 1) - r = (skipwsLoop rest (r + 1) - (r + 1)) + 1 := by omega
      simp only [skipwsLoop, hc, if_true, List.length_cons, List.dropWhile_cons_of_pos]
      refine ⟨by omega, by omega, ?_⟩
      rw [e, List.drop_succ_cons, h3]
    · simp [skipwsLoop, hc, List.dropWhile_cons_of_neg]

theorem skipws_ge (code : List Char) (r : Nat) : r ≤ skipws code r :=
  (skipwsLoop_spec _ r).1

theorem skipws_le (code : List Char) (r : Nat) (h : r ≤ code.length) :
    skipws code r ≤ code.length := by
  have := (skipwsLoop_spec (code.drop r) r).2.1
  simp only [List.length_drop] at this
  unfold skipws
  omega

theorem drop_skipws (code : List Char) (r : Nat) :
    code.drop (skipws code r) = (code.drop r).dropWhile (fun c => isAnyOf c WHITESPACE) := by
  obtain ⟨h1, _, h3⟩ := skipwsLoop_spec (code.drop r) r
  rw [← h3, List.drop_drop]
  unfold skipws
  congr 1
  omega

theorem drop_skipws_eq_nil_iff (code : List Char) (r : Nat) :
    code.drop (skipws code r) = [] ↔
      (code.drop r).all (fun c => isAnyOf c WHITESPACE) = true := by
  rw [drop_skipws, List.dropWhile_eq_nil_iff, List.all_eq_true]

theorem head_drop_skipws {code : List Char} {r : Nat} {c : Char} {rest : List Char}
    (h : code.drop (skipws code r) = c :: rest) : isAnyOf c WHITESPACE = false := by
  rw [drop_skipws] at h
  have := List.head_dropWhile_not (fun c => isAnyOf c WHITESPACE) (code.drop r)
    (by rw [h]; simp)
  simpa [h] using this

theorem consumeLoop_spec (T : Tables) (operatorRun : Bool) (l : List Char) (r : Nat)
    (slot : Slot) :
    r ≤ (consumeLoop T operatorRun l r slot).1 ∧
    (consumeLoop T operatorRun l r slot).1 ≤ r + l.length ∧
    (consumeLoop T operatorRun l r slot).2.data = slot.data ∧
    (∀ b, slot.data = some b → b < r → 0 < slot.size →
      0 < (consumeLoop T operatorRun l r slot).2.size) := by
  induction l generalizing r slot with
  | nil => simp [consumeLoop]
  | cons c rest ih =>
    unfold consumeLoop
    by_cases hc : check T operatorRun c = true
    · by_cases he : rest.isEmpty = true
      · rw [if_pos hc, if_pos he]
        refine ⟨?_, ?_, rfl, fun _ _ _ h => h⟩ <;> simp only [List.length_cons] <;> omega
      · obtain ⟨h1, h2, h3, h4⟩ := ih (r + 1) (slot.upTo (r + 1))
        rw [if_pos hc, if_neg he]
        have hdata : (slot.upTo (r + 1)).data = slot.data := by
          cases slot with
          | mk d s => cases d <;> rfl
        refine ⟨by omega, by simp only [List.length_cons]; omega, by rw [h3, hdata], ?_⟩
        intro b hb hlt _
        refine h4 b (by rw [hdata, hb]) (by omega) ?_
        simp only [Slot.upTo, hb]
        omega
    · rw [if_neg hc]
      exact ⟨le_refl _, by omega, rfl, fun _ _ _ h => h⟩

theorem consume_of_skipws_nil (T : Tables) {code : List Char} {r : Nat}
    (h : code.drop (skipws code r) = []) : consume T code r = (skipws code r, Slot.empty) := by
  simp [consume, h]

theorem consume_of_skipws_cons (T : Tables) {code : List Char} {r : Nat} {c : Char}
    {rest : List Char} (h : code.drop (skipws code r) = c :: rest) :
    consume T code r =
      if rest.isEmpty then (skipws code r + 1, ⟨some (skipws code r), 1⟩)
      else consumeLoop T (isAnyOf c T.OPERATOR_CHARACTERS) rest (skipws code r + 1)
        ⟨some (skipws code r), 1⟩ := by
  simp [consume, h]

/-- The cursor returned by `consume` is not before the cursor it was given;
it is not beyond the end of the text; the slot is empty exactly when only
whitespace is left, and then the cursor is at the end of the text; when the
slot is not empty the cursor has moved. -/
theorem consume_spec (T : Tables) (code : List Char) (r : Nat) :
    r ≤ (consume T code r).1 ∧
    (r ≤ code.length → (consume T code r).1 ≤ code.length) ∧
    ((consume T code r).2.size = 0 ↔
      (code.drop r).all (fun c => isAnyOf c WHITESPACE) = true) ∧
    ((consume T code r).2.size = 0 → r ≤ code.length →
      consume T code r = (code.length, Slot.empty)) ∧
    ((consume T code r).2.size ≠ 0 → r < (consume T code r).1) := by
  have hge := skipws_ge code r
  have hnil := drop_skipws_eq_nil_iff code r
  cases hd : code.drop (skipws code r) with
  | nil =>
    have hall := hnil.mp hd
    have hlen : code.length ≤ skipws code r := List.drop_eq_nil_iff.mp hd
    rw [consume_of_skipws_nil T hd]
    refine ⟨hge, fun h => ?_, ?_, fun _ h => ?_, fun h => absurd rfl h⟩
    · have := skipws_le code r h; omega
    · simp [Slot.empty, hall]
    · have := skipws_le code r h
      have e : skipws code r = code.length := by omega
      rw [e]
  | cons c rest =>
    have hall : ¬ (code.drop r).all (fun c => isAnyOf c WHITESPACE) = true := by
      intro h; rw [hnil.mpr h] at hd; cases hd
    have hlen : skipws code r + 1 + rest.length = code.length := by
      have := congrArg List.length hd
      simp only [List.length_drop, List.length_cons] at this
      omega
    rw [consume_of_skipws_cons T hd]
    by_cases he : rest.isEmpty = true
    · rw [if_pos he]
      refine ⟨by simp only; omega, fun _ => by simp only; omega, ?_, ?_,
        fun _ => by simp only; omega⟩
      · simp [hall]
      · intro h; simp at h
    · obtain ⟨h1, h2, h3, h4⟩ := consumeLoop_spec T (isAnyOf c T.OPERATOR_CHARACTERS) rest
        (skipws code r + 1) ⟨some (skipws code r), 1⟩
      have hpos := h4 (skipws code r) rfl (by omega) Nat.one_pos
      rw [if_neg he]
      refine ⟨by omega, fun _ => by omega, ?_, ?_, fun _ => by omega⟩
      · constructor
        · intro h; omega
        · intro h; exact absurd h hall
      · intro h; omega

/-- What `scanFloatLiteral` changes: the text, the kind and the raw token of
the current token are kept; the cursor is kept, or moved past the two
looked-ahead raw tokens. -/
theorem scanFloatLiteral_spec (T : Tables) (w : Slot) (p : Parser) (b : Bool) (p' : Parser)
    (h : scanFloatLiteral T w p = .ok (b, p')) :
    p'.code = p.code ∧
    (p'.r = p.r ∨ p'.r = (consume T p.code (consume T p.code p.r).1).1) ∧
    p'.currentTok.type = p.currentTok.type ∧ p'.currentTok.code = p.currentTok.code := by
  unfold scanFloatLiteral at h
  simp only at h
  split at h
  · split at h
    · split at h
      · cases h; exact ⟨rfl, Or.inr rfl, rfl, rfl⟩
      · cases h; exact ⟨rfl, Or.inl rfl, rfl, rfl⟩
    · cases h
  · split at h
    · cases h; exact ⟨rfl, Or.inl rfl, rfl, rfl⟩
    · cases h; exact ⟨rfl, Or.inl rfl, rfl, rfl⟩

theorem bind_eq_ok {α β : Type} {x : Outcome α} {f : α → Outcome β} {b : β}
    (h : x.bind f = .ok b) : ∃ a, x = .ok a ∧ f a = .ok b := by
  cases x with
  | ok a => exact ⟨a, rfl, h⟩
  | fault e s => cases h

/-- With nothing but whitespace left, `scanToken` yields `END_OF_FIELD`. -/
theorem scanToken_of_empty (T : Tables) (p : Parser)
    (h : (consume T p.code p.r).2.size = 0) :
    scanToken T p =
      .ok ⟨p.code, (consume T p.code p.r).1, ⟨T.END_OF_FIELD, none, Slot.empty⟩⟩ := by
  simp [scanToken, h]

/-- A successful `scanToken` on a non-empty raw token: the text is kept, the
cursor is the one returned by `consume` or the one after the two
looked-ahead raw tokens, and the kind is the index of a spelling, `PRIMITIVE`
or the kind of a value-initialised token. -/
theorem scanToken_of_nonempty (T : Tables) (p p' : Parser)
    (hsize : (consume T p.code p.r).2.size ≠ 0) (h : scanToken T p = .ok p') :
    p'.code = p.code ∧
    (p'.r = (consume T p.code p.r).1 ∨
      p'.r = (consume T p.code (consume T p.code (consume T p.code p.r).1).1).1) ∧
    (p'.currentTok.type < T.OPERATOR_TOKENS.length ∨ p'.currentTok.type = T.PRIMITIVE ∨
      p'.currentTok.type = T.defaultType) := by
  unfold scanToken at h
  simp only [hsize, if_false] at h
  split at h
  · rename_i hidx
    cases h
    exact ⟨rfl, Or.inl rfl, Or.inl hidx⟩
  · split at h
    · obtain ⟨res, hres, hk⟩ := bind_eq_ok h
      obtain ⟨b, q⟩ := res
      obtain ⟨h1, h2, _, _⟩ := scanFloatLiteral_spec T _ _ b q hres
      cases hk
      exact ⟨h1, h2, Or.inr (Or.inl rfl)⟩
    · cases h
      exact ⟨rfl, Or.inl rfl, Or.inr (Or.inr rfl)⟩

/-- Progress of `scanToken`: the text is kept, the cursor does not move
backward and stays within the text; it moves forward unless only whitespace
was left. -/
theorem scanToken_cursor (T : Tables) (p p' : Parser) (h : scanToken T p = .ok p') :
    p'.code = p.code ∧ p.r ≤ p'.r ∧ (p.r ≤ p.code.length → p'.r ≤ p.code.length) ∧
    ((consume T p.code p.r).2.size ≠ 0 → p.r < p'.r) := by
  obtain ⟨c1, c2, _, _, c5⟩ := consume_spec T p.code p.r
  by_cases hsize : (consume T p.code p.r).2.size = 0
  · rw [scanToken_of_empty T p hsize] at h
    cases h
    exact ⟨rfl, c1, c2, fun hne => absurd hsize hne⟩
  · obtain ⟨h1, h2, _⟩ := scanToken_of_nonempty T p p' hsize h
    have c5' := c5 hsize
    obtain ⟨d1, d2, _⟩ := consume_spec T p.code (consume T p.code p.r).1
    obtain ⟨e1, e2, _⟩ := consume_spec T p.code (consume T p.code (consume T p.code p.r).1).1
    refine ⟨h1, ?_, ?_, fun _ => ?_⟩
    · rcases h2 with h2 | h2 <;> omega
    · intro hr
      have := c2 hr
      have := d2 this
      have := e2 this
      rcases h2 with h2 | h2 <;> omega
    · rcases h2 with h2 | h2 <;> omega

/-- The state after `scanToken` has found the end of the text is a fixed
point of `scanToken`. -/
theorem scanToken_fixed_at_end (T : Tables) (code : List Char) :
    scanToken T ⟨code, code.length, ⟨T.END_OF_FIELD, none, Slot.empty⟩⟩ =
      .ok ⟨code, code.length, ⟨T.END_OF_FIELD, none, Slot.empty⟩⟩ :=
  scanToken_at_end T ⟨code, code.length, ⟨T.END_OF_FIELD, none, Slot.empty⟩⟩
    (List.drop_length code)

theorem scanTokens_at_end (T : Tables) (code : List Char) (n : Nat) :
    scanTokens T n ⟨code, code.length, ⟨T.END_OF_FIELD, none, Slot.empty⟩⟩ =
      .ok (List.replicate n ⟨T.END_OF_FIELD, none, Slot.empty⟩) := by
  induction n with
  | zero => rfl
  | succ n ih => simp [scanTokens, scanToken_fixed_at_end, Outcome.bind, ih, List.replicate]

/-- C7. End-of-input handling of `scanToken`: for every text and cursor
position within it, `scanToken` yields an `END_OF_FIELD` token if and only if
every character from the cursor to the end of the text is whitespace; in that
case the cursor ends at the end of the text, the state is a fixed point of
`scanToken`, and any number of further calls yield `END_OF_FIELD` again.
Assumptions on `token.h`: `END_OF_FIELD` is neither the index of an operator
spelling nor the kind of a value-initialised token. -/
theorem scanToken_end_of_field (T : Tables) (p : Parser)
    (hr : p.r ≤ p.code.length)
    (hops : T.OPERATOR_TOKENS.length ≤ T.END_OF_FIELD)
    (hdef : T.defaultType ≠ T.END_OF_FIELD) :
    ((∃ p', scanToken T p = .ok p' ∧ p'.currentTok.type = T.END_OF_FIELD) ↔
      (p.code.drop p.r).all (fun c => isAnyOf c WHITESPACE) = true) ∧
    (∀ p', scanToken T p = .ok p' → p'.currentTok.type = T.END_OF_FIELD →
      p' = ⟨p.code, p.code.length, ⟨T.END_OF_FIELD, none, Slot.empty⟩⟩ ∧
      scanToken T p' = .ok p' ∧
      ∀ n, scanTokens T n p' = .ok (List.replicate n ⟨T.END_OF_FIELD, none, Slot.empty⟩)) := by
  obtain ⟨_, _, c3, c4, _⟩ := consume_spec T p.code p.r
  have key : ∀ p', scanToken T p = .ok p' → p'.currentTok.type = T.END_OF_FIELD →
      (consume T p.code p.r).2.size = 0 := by
    intro p' h ht
    by_contra hsize
    obtain ⟨_, _, h3⟩ := scanToken_of_nonempty T p p' hsize h
    have := T.distinct
    rcases h3 with h3 | h3 | h3
    · omega
    · exact this (h3.symm.trans ht)
    · exact hdef (h3.symm.trans ht)
  constructor
  · constructor
    · rintro ⟨p', h, ht⟩
      exact c3.mp (key p' h ht)
    · intro hall
      exact ⟨_, scanToken_of_empty T p (c3.mpr hall), rfl⟩
  · intro p' h ht
    have hsize := key p' h ht
    rw [scanToken_of_empty T p hsize, c4 hsize hr] at h
    cases h
    exact ⟨rfl, scanToken_fixed_at_end T p.code, scanTokens_at_end T p.code⟩

/-- Instance of `scanToken_end_of_field` on the text of two blanks after
`1`, cursor after the digit, with the sample table. -/
theorem scanToken_end_of_field_witness :
    ((∃ p', scanToken sampleTables ⟨['1', ' ', ' '], 1, ⟨4, none, Slot.empty⟩⟩ = .ok p' ∧
        p'.currentTok.type = sampleTables.END_OF_FIELD) ↔
      (['1', ' ', ' '].drop 1).all (fun c => isAnyOf c WHITESPACE) = true) ∧
    (∀ p', scanToken sampleTables ⟨['1', ' ', ' '], 1, ⟨4, none, Slot.empty⟩⟩ = .ok p' →
      p'.currentTok.type = sampleTables.END_OF_FIELD →
      p' = ⟨['1', ' ', ' '], 3, ⟨sampleTables.END_OF_FIELD, none, Slot.empty⟩⟩ ∧
      scanToken sampleTables p' = .ok p' ∧
      ∀ n, scanTokens sampleTables n p' =
        .ok (List.replicate n ⟨sampleTables.END_OF_FIELD, none, Slot.empty⟩)) :=
  scanToken_end_of_field sampleTables ⟨['1', ' ', ' '], 1, ⟨4, none, Slot.empty⟩⟩
    (by decide) (by decide) (by decide)

/-- On a text of whitespace only (the empty text included) the first token
is `END_OF_FIELD`, and the run reaches the missing `return` of
`parseTerminalNode` at the first terminal. -/
theorem parse_of_whitespace (T : Tables) (code : List Char)
    (hall : code.all (fun c => isAnyOf c WHITESPACE) = true) :
    scanToken T (Parser.new T code) =
      .ok ⟨code, code.length, ⟨T.END_OF_FIELD, none, Slot.empty⟩⟩ ∧
    parse T code =
      .fault .missingReturn ⟨code, code.length, ⟨T.END_OF_FIELD, none, Slot.empty⟩⟩ := by
  obtain ⟨_, _, c3, c4, _⟩ := consume_spec T code 0
  have hsize : (consume T code 0).2.size = 0 := c3.mpr (by simpa using hall)
  have hscan := scanToken_of_empty T (Parser.new T code) hsize
  simp only [Parser.new] at hscan
  rw [c4 hsize (Nat.zero_le _)] at hscan
  have hne : ¬ T.END_OF_FIELD = T.PRIMITIVE := fun h => T.distinct h.symm
  refine ⟨hscan, ?_⟩
  simp [parse, Parser.new, hscan, Outcome.bind, parseBinaryExpression, parseTerminalNode, hne]

/-- C8, on the code: when a terminal is required and the current token is
not `PRIMITIVE`, the guard of `parseTerminalNode` fails and control reaches
the end of the function, which has no `return` statement and no failure
channel on this path: no ExpectedLiteral failure is produced, and from this
point on the behaviour of the program is undefined (`missingReturn`, with
the state in which the point is reached; nothing stops the caller).  Parsing
a text of whitespace only (the empty text included) reaches this point at
the first terminal: the first token is `END_OF_FIELD`, which is not
`PRIMITIVE`. -/
theorem terminal_without_return (T : Tables) (p : Parser)
    (h : p.currentTok.type ≠ T.PRIMITIVE) :
    parseTerminalNode T p = .fault .missingReturn p ∧
    (∀ code : List Char, code.all (fun c => isAnyOf c WHITESPACE) = true →
      scanToken T (Parser.new T code) =
        .ok ⟨code, code.length, ⟨T.END_OF_FIELD, none, Slot.empty⟩⟩ ∧
      T.END_OF_FIELD ≠ T.PRIMITIVE ∧
      parse T code =
        .fault .missingReturn ⟨code, code.length, ⟨T.END_OF_FIELD, none, Slot.empty⟩⟩) := by
  refine ⟨by simp [parseTerminalNode, h], fun code hall => ?_⟩
  obtain ⟨h1, h2⟩ := parse_of_whitespace T code hall
  exact ⟨h1, fun e => T.distinct e.symm, h2⟩

/-- C8 with the sample table: the missing `return` is reached on the empty
text at the token `END_OF_FIELD`, on `+1` at the operator token `+` (cursor
1), and on `1+` at the token `END_OF_FIELD` after the operator (cursor 2). -/
theorem terminal_without_return_witness :
    (parseTerminalNode sampleTables ⟨['1', '+'], 2, ⟨5, none, Slot.empty⟩⟩ =
        .fault .missingReturn ⟨['1', '+'], 2, ⟨5, none, Slot.empty⟩⟩ ∧
      parse sampleTables [] = .fault .missingReturn ⟨[], 0, ⟨5, none, Slot.empty⟩⟩) ∧
    parse sampleTables ['+', '1'] =
      .fault .missingReturn ⟨['+', '1'], 1, ⟨0, none, ⟨some 0, 1⟩⟩⟩ ∧
    parse sampleTables ['1', '+'] =
      .fault .missingReturn ⟨['1', '+'], 2, ⟨sampleTables.END_OF_FIELD, none, Slot.empty⟩⟩ :=
  have h := terminal_without_return sampleTables ⟨['1', '+'], 2, ⟨5, none, Slot.empty⟩⟩
    (by decide)
  ⟨⟨h.1, (h.2 [] rfl).2.2⟩, by decide, by decide⟩

/-! ## Termination of the parser -/

theorem ranOut_bind {α β : Type} (x : Outcome α) (f : α → Outcome β)
    (hx : x.ranOut = false) (hf : ∀ a, x = .ok a → (f a).ranOut = false) :
    (x.bind f).ranOut = false := by
  cases x with
  | ok a => exact hf a rfl
  | fault e s => cases e <;> first | rfl | exact hx

theorem scanFloatLiteral_ranOut (T : Tables) (w : Slot) (p : Parser) :
    (scanFloatLiteral T w p).ranOut = false := by
  unfold scanFloatLiteral
  simp only
  split
  · split
    · split <;> rfl
    · rfl
  · split <;> rfl

theorem scanToken_ranOut (T : Tables) (p : Parser) : (scanToken T p).ranOut = false := by
  unfold scanToken
  simp only
  split
  · rfl
  · split
    · rfl
    · split
      · exact ranOut_bind _ _ (scanFloatLiteral_ranOut T _ _) (fun _ _ => rfl)
      · rfl

/-- A token other than `END_OF_FIELD` has moved the cursor, which stays
within the text. -/
theorem scanToken_progress (T : Tables) (p p' : Parser) (h : scanToken T p = .ok p')
    (ht : p'.currentTok.type ≠ T.END_OF_FIELD) : p.r < p'.r ∧ p'.r ≤ p.code.length := by
  obtain ⟨_, _, c3, _, _⟩ := consume_spec T p.code p.r
  have hsize : (consume T p.code p.r).2.size ≠ 0 := by
    intro h0
    rw [scanToken_of_empty T p h0] at h
    cases h
    exact ht rfl
  obtain ⟨_, _, h3, h4⟩ := scanToken_cursor T p p' h
  have hlt : p.r < p.code.length := by
    by_contra hge
    have hnil : p.code.drop p.r = [] := List.drop_eq_nil_iff.mpr (by omega)
    exact hsize (c3.mpr (by simp [hnil]))
  exact ⟨h4 hsize, h3 (by omega)⟩

theorem parseTerminalNode_ok (T : Tables) (p : Parser) (t : AstNode) (p' : Parser)
    (h : parseTerminalNode T p = .ok (t, p')) :
    p.currentTok.type = T.PRIMITIVE ∧ t = .leaf p.currentTok ∧ scanToken T p = .ok p' := by
  unfold parseTerminalNode at h
  split at h
  · rename_i hp
    obtain ⟨a, ha, hk⟩ := bind_eq_ok h
    cases hk
    exact ⟨hp, rfl, ha⟩
  · cases h

theorem parseTerminalNode_ranOut (T : Tables) (p : Parser) :
    (parseTerminalNode T p).ranOut = false := by
  unfold parseTerminalNode
  split
  · exact ranOut_bind _ _ (scanToken_ranOut T p) (fun _ _ => rfl)
  · rfl

/-- The loop of `parseBinaryExpression` ends without running out of fuel,
and moves the cursor forward only, when it has one unit of fuel more than
there are characters after the cursor and the recursive call has as much. -/
theorem parseLoop_total (T : Tables) (recurse : Int → Parser → Outcome (AstNode × Parser))
    (k0 : Nat) (prev : Int)
    (hrec : ∀ prev' p, (p.currentTok.type = T.PRIMITIVE → p.code.length - p.r + 2 ≤ k0) →
      (recurse prev' p).ranOut = false ∧
      ∀ t p', recurse prev' p = .ok (t, p') →
        p.currentTok.type = T.PRIMITIVE ∧ p'.code = p.code ∧ p.r ≤ p'.r) :
    ∀ (j : Nat) (left : AstNode) (nodeType : Nat) (q : Parser),
      q.code.length - q.r + 1 ≤ j → q.code.length - q.r + 1 ≤ k0 →
      (parseLoop T recurse prev j left nodeType q).ranOut = false ∧
      ∀ t p', parseLoop T recurse prev j left nodeType q = .ok (t, p') →
        p'.code = q.code ∧ q.r ≤ p'.r := by
  intro j
  induction j with
  | zero => intro left nodeType q hj; omega
  | succ j ih =>
    intro left nodeType q hj hk
    unfold parseLoop
    split
    · cases hs : scanToken T q with
      | fault f s =>
        have := scanToken_ranOut T q
        rw [hs] at this
        simp only [Outcome.bind]
        exact ⟨by cases f <;> first | rfl | exact this, fun t p' h => by cases h⟩
      | ok q1 =>
        obtain ⟨hc1, hle1, _, _⟩ := scanToken_cursor T q q1 hs
        have hprog : q1.currentTok.type = T.PRIMITIVE → q.r < q1.r ∧ q1.r ≤ q.code.length :=
          fun hp => scanToken_progress T q q1 hs (by rw [hp]; exact T.distinct)
        obtain ⟨hro, hok⟩ := hrec (T.OPERATOR_PRECEDENCE nodeType) q1 (by
          intro hp
          have := hprog hp
          rw [hc1]; omega)
        simp only [Outcome.bind]
        cases hr : recurse (T.OPERATOR_PRECEDENCE nodeType) q1 with
        | fault f s =>
          rw [hr] at hro
          simp only
          exact ⟨hro, fun t p' h => by cases h⟩
        | ok res =>
          obtain ⟨t2, q2⟩ := res
          obtain ⟨hp, hc2, hle2⟩ := hok t2 q2 hr
          obtain ⟨hlt, hlen⟩ := hprog hp
          simp only
          by_cases heof : q2.currentTok.type = T.END_OF_FIELD
          · rw [if_pos heof]
            refine ⟨rfl, fun t p' h => ?_⟩
            cases h
            exact ⟨hc2.trans hc1, by omega⟩
          · rw [if_neg heof]
            obtain ⟨i1, i2⟩ := ih (.parent nodeType left t2) q2.currentTok.type q2
              (by rw [hc2, hc1]; omega) (by rw [hc2, hc1]; omega)
            refine ⟨i1, fun t p' h => ?_⟩
            obtain ⟨e1, e2⟩ := i2 t p' h
            exact ⟨e1.trans (hc2.trans hc1), by omega⟩
    · exact ⟨rfl, fun t p' h => by cases h; exact ⟨rfl, le_refl _⟩⟩

/-- With two units of fuel more than there are characters after the cursor,
`parseBinaryExpression` ends without running out of fuel; when it returns a
tree it was entered at a `PRIMITIVE` token and the cursor has not moved
backward. -/
theorem parseBinaryExpression_fuel (T : Tables) :
    ∀ (k : Nat) (prev : Int) (p : Parser), 1 ≤ k →
      (p.currentTok.type = T.PRIMITIVE → p.code.length - p.r + 2 ≤ k) →
      (parseBinaryExpression T k prev p).ranOut = false ∧
      ∀ t p', parseBinaryExpression T k prev p = .ok (t, p') →
        p.currentTok.type = T.PRIMITIVE ∧ p'.code = p.code ∧ p.r ≤ p'.r := by
  intro k
  induction k with
  | zero => intro prev p h1; omega
  | succ k ih =>
    intro prev p _ hk
    unfold parseBinaryExpression
    cases ht : parseTerminalNode T p with
    | fault f s =>
      have := parseTerminalNode_ranOut T p
      rw [ht] at this
      simp only [Outcome.bind]
      exact ⟨this, fun t p' h => by cases h⟩
    | ok res =>
      obtain ⟨t1, p1⟩ := res
      obtain ⟨hp, _, hs⟩ := parseTerminalNode_ok T p t1 p1 ht
      obtain ⟨hc1, hle1, _, _⟩ := scanToken_cursor T p p1 hs
      have hk' := hk hp
      simp only [Outcome.bind]
      by_cases hne : p1.currentTok.type = T.END_OF_FIELD
      · rw [if_pos hne]
        refine ⟨rfl, fun t p' h => ?_⟩
        cases h
        exact ⟨hp, hc1, hle1⟩
      · rw [if_neg hne]
        obtain ⟨hlt, hlen⟩ := scanToken_progress T p p1 hs hne
        obtain ⟨l1, l2⟩ := parseLoop_total T (parseBinaryExpression T k) k prev
          (fun prev' p0 h0 => ih prev' p0 (by omega) h0) k t1 p1.currentTok.type p1
          (by rw [hc1]; omega) (by rw [hc1]; omega)
        refine ⟨l1, fun t p' h => ?_⟩
        obtain ⟨e1, e2⟩ := l2 t p' h
        exact ⟨hp, e1.trans hc1, by omega⟩

theorem parseLoop_succ (T : Tables) (recurse : Int → Parser → Outcome (AstNode × Parser))
    (prev : Int) (j : Nat) (left : AstNode) (nodeType : Nat) (p : Parser) :
    parseLoop T recurse prev (j + 1) left nodeType p =
      if T.OPERATOR_PRECEDENCE nodeType > prev then
        (scanToken T p).bind fun p1 =>
        (recurse (T.OPERATOR_PRECEDENCE nodeType) p1).bind fun res =>
          if res.2.currentTok.type = T.END_OF_FIELD then
            .ok (AstNode.parent nodeType left res.1, res.2)
          else parseLoop T recurse prev j (AstNode.parent nodeType left res.1)
            res.2.currentTok.type res.2
      else .ok (left, p) := rfl

theorem parseBinaryExpression_succ (T : Tables) (k : Nat) (prev : Int) (p : Parser) :
    parseBinaryExpression T (k + 1) prev p =
      (parseTerminalNode T p).bind fun res =>
        if res.2.currentTok.type = T.END_OF_FIELD then .ok res
        else parseLoop T (parseBinaryExpression T k) prev k res.1 res.2.currentTok.type res.2 :=
  rfl

/-- One more unit of fuel does not change a run of the loop that did not
run out of fuel. -/
theorem parseLoop_stable (T : Tables)
    (rec1 rec2 : Int → Parser → Outcome (AstNode × Parser)) (prev : Int)
    (hrec : ∀ prev' p, (rec1 prev' p).ranOut = false → rec2 prev' p = rec1 prev' p) :
    ∀ (j : Nat) (left : AstNode) (nodeType : Nat) (q : Parser),
      (parseLoop T rec1 prev j left nodeType q).ranOut = false →
      parseLoop T rec2 prev (j + 1) left nodeType q = parseLoop T rec1 prev j left nodeType q := by
  intro j
  induction j with
  | zero => intro left nodeType q h; simp [parseLoop, Outcome.ranOut] at h
  | succ j ih =>
    intro left nodeType q h
    rw [parseLoop_succ] at h
    rw [parseLoop_succ, parseLoop_succ T rec1]
    by_cases hb : T.OPERATOR_PRECEDENCE nodeType > prev
    · rw [if_pos hb] at h ⊢
      rw [if_pos hb]
      cases hs : scanToken T q with
      | fault f s => rfl
      | ok q1 =>
        rw [hs] at h
        simp only [Outcome.bind] at h ⊢
        have hr1 : (rec1 (T.OPERATOR_PRECEDENCE nodeType) q1).ranOut = false := by
          revert h
          cases rec1 (T.OPERATOR_PRECEDENCE nodeType) q1 with
          | ok a => intro _; rfl
          | fault e s => intro h; exact h
        rw [hrec _ _ hr1]
        cases hr : rec1 (T.OPERATOR_PRECEDENCE nodeType) q1 with
        | fault f s => rfl
        | ok res =>
          rw [hr] at h
          simp only at h ⊢
          by_cases heof : res.2.currentTok.type = T.END_OF_FIELD
          · rw [if_pos heof, if_pos heof]
          · rw [if_neg heof] at h ⊢
            rw [if_neg heof]
            exact ih _ _ _ h
    · rw [if_neg hb, if_neg hb]

/-- One more unit of fuel does not change a run of `parseBinaryExpression`
that did not run out of fuel. -/
theorem parseBinaryExpression_stable (T : Tables) :
    ∀ (k : Nat) (prev : Int) (p : Parser), (parseBinaryExpression T k prev p).ranOut = false →
      parseBinaryExpression T (k + 1) prev p = parseBinaryExpression T k prev p := by
  intro k
  induction k with
  | zero => intro prev p h; simp [parseBinaryExpression, Outcome.ranOut] at h
  | succ k ih =>
    intro prev p h
    rw [parseBinaryExpression_succ] at h
    rw [parseBinaryExpression_succ, parseBinaryExpression_succ T k]
    cases ht : parseTerminalNode T p with
    | fault f s => rfl
    | ok res =>
      rw [ht] at h
      simp only [Outcome.bind] at h ⊢
      by_cases heof : res.2.currentTok.type = T.END_OF_FIELD
      · rw [if_pos heof, if_pos heof]
      · rw [if_neg heof] at h ⊢
        rw [if_neg heof]
        exact parseLoop_stable T _ _ prev (fun prev' p0 h0 => ih prev' p0 h0) k _ _ _ h

theorem parseBinaryExpression_stable_add (T : Tables) (k : Nat) (prev : Int) (p : Parser)
    (h : (parseBinaryExpression T k prev p).ranOut = false) (m : Nat) :
    parseBinaryExpression T (k + m) prev p = parseBinaryExpression T k prev p := by
  induction m with
  | zero => rfl
  | succ m ih =>
    rw [← Nat.add_assoc, parseBinaryExpression_stable T (k + m) prev p (by rw [ih]; exact h), ih]

/-- A call of `parseBinaryExpression` that returns a tree was entered at a
`PRIMITIVE` token, keeps the text and does not move the cursor backward. -/
theorem parseBinaryExpression_ok (T : Tables) (k : Nat) (prev : Int) (p : Parser)
    (t : AstNode) (p' : Parser) (h : parseBinaryExpression T k prev p = .ok (t, p')) :
    p.currentTok.type = T.PRIMITIVE ∧ p'.code = p.code ∧ p.r ≤ p'.r := by
  have hro : (parseBinaryExpression T k prev p).ranOut = false := by rw [h]; rfl
  have hst := parseBinaryExpression_stable_add T k prev p hro (p.code.length - p.r + 2)
  have hf := parseBinaryExpression_fuel T (k + (p.code.length - p.r + 2)) prev p (by omega)
    (fun _ => by omega)
  exact hf.2 t p' (by rw [hst, h])

/-- C9 (amended). Parsing always terminates: for every text, table and
minimum binding power, `parseBinaryExpression` with fuel
`code.length - r + 2` does not run out of fuel, and every larger fuel gives
the same result.  A call that returns a tree never moves the cursor backward;
every completed iteration of the loop (`scanToken`, then the recursive call)
strictly advances the cursor, the recursive call being entered with the
cursor strictly beyond the cursor at the start of the iteration; the terminal
step of a call strictly advances the cursor whenever the loop is reached; and
`scanFloatLiteral` leaves the cursor where it was or moves it past exactly
two looked-ahead raw tokens. -/
theorem parseBinaryExpression_total (T : Tables) (prev : Int) (p : Parser) :
    (parseBinaryExpression T (p.code.length - p.r + 2) prev p).ranOut = false ∧
    (∀ fuel, p.code.length - p.r + 2 ≤ fuel →
      parseBinaryExpression T fuel prev p =
        parseBinaryExpression T (p.code.length - p.r + 2) prev p) ∧
    (∀ fuel t p', parseBinaryExpression T fuel prev p = .ok (t, p') → p.r ≤ p'.r) ∧
    (∀ fuel prec p1 t p2, scanToken T p = .ok p1 →
      parseBinaryExpression T fuel prec p1 = .ok (t, p2) → p.r < p1.r ∧ p1.r ≤ p2.r) ∧
    (∀ left p1, parseTerminalNode T p = .ok (left, p1) →
      p1.currentTok.type ≠ T.END_OF_FIELD → p.r < p1.r) ∧
    (∀ w b p', scanFloatLiteral T w p = .ok (b, p') →
      p'.r = p.r ∨ p'.r = (consume T p.code (consume T p.code p.r).1).1) := by
  have hf := parseBinaryExpression_fuel T (p.code.length - p.r + 2) prev p (by omega)
    (fun _ => le_refl _)
  refine ⟨hf.1, ?_, ?_, ?_, ?_, ?_⟩
  · intro fuel hle
    obtain ⟨m, rfl⟩ := Nat.exists_eq_add_of_le hle
    exact parseBinaryExpression_stable_add T _ prev p hf.1 m
  · intro fuel t p' h
    exact (parseBinaryExpression_ok T fuel prev p t p' h).2.2
  · intro fuel prec p1 t p2 hs h
    obtain ⟨hp, _, hle⟩ := parseBinaryExpression_ok T fuel prec p1 t p2 h
    exact ⟨(scanToken_progress T p p1 hs (by rw [hp]; exact T.distinct)).1, hle⟩
  · intro left p1 h hne
    obtain ⟨_, _, hs⟩ := parseTerminalNode_ok T p left p1 h
    exact (scanToken_progress T p p1 hs hne).1
  · intro w b p' h
    exact (scanFloatLiteral_spec T w p b p' h).2.1

/-- C9, as stated, fails at the text `1+2` with the sample table: the
recursive call of the loop is entered after `scanToken` has produced the
token `2` (cursor 3, the end of the text) and returns the leaf `2` with the
cursor still at 3, so not every recursive call strictly advances the
cursor. -/
theorem recursive_call_keeps_cursor :
    scanToken sampleTables ⟨['1', '+', '2'], 2, ⟨0, none, ⟨some 1, 1⟩⟩⟩ =
      .ok ⟨['1', '+', '2'], 3, ⟨4, some (.int 2), ⟨some 2, 1⟩⟩⟩ ∧
    parseBinaryExpression sampleTables 5 10 ⟨['1', '+', '2'], 3, ⟨4, some (.int 2), ⟨some 2, 1⟩⟩⟩ =
      .ok (.leaf ⟨4, some (.int 2), ⟨some 2, 1⟩⟩, ⟨['1', '+', '2'], 3, ⟨5, none, Slot.empty⟩⟩) ∧
    ¬ (∀ (T : Tables) (fuel : Nat) (prev : Int) (p : Parser) (t : AstNode) (p' : Parser),
        parseBinaryExpression T fuel prev p = .ok (t, p') → p.r < p'.r) := by
  refine ⟨by decide, by decide, fun h => ?_⟩
  have h3 := h sampleTables 5 10 ⟨['1', '+', '2'], 3, ⟨4, some (.int 2), ⟨some 2, 1⟩⟩⟩
    (.leaf ⟨4, some (.int 2), ⟨some 2, 1⟩⟩) ⟨['1', '+', '2'], 3, ⟨5, none, Slot.empty⟩⟩
    (by decide)
  exact absurd h3 (by decide)

/-! ## The tree and the token sequence -/

theorem reads_append {T : Tables} {p q p' : Parser} {a b : List Token}
    (h1 : Reads T p a q) (h2 : Reads T q b p') : Reads T p (a ++ b) p' := by
  induction h1 with
  | nil p => exact h2
  | cons hs _ ih => exact Reads.cons hs (ih h2)

theorem reads_single {T : Tables} {p p1 : Parser} (h : scanToken T p = .ok p1) :
    Reads T p [p.currentTok] p1 := Reads.cons h (Reads.nil p1)

/-- The tokens the parser has moved past, after the first, followed by the
current token, are what `scanTokens` yields. -/
theorem reads_scanTokens {T : Tables} {p p' : Parser} {toks : List Token}
    (h : Reads T p toks p') :
    scanTokens T toks.length p = .ok ((toks ++ [p'.currentTok]).tail) := by
  induction h with
  | nil p => rfl
  | cons hs hr ih =>
    rename_i p p1 p' toks
    simp only [List.length_cons, scanTokens, hs, Outcome.bind, ih]
    cases hr with
    | nil _ => rfl
    | cons _ _ => rfl

theorem alternate_cons_cons (t x : Token) (l : List Token) :
    alternate (t :: x :: l) = .inl t :: .inr x.type :: alternate l := rfl

theorem alternate_append_aux (o : Token) (b : List Token) :
    ∀ (n : Nat) (a : List Token), a.length = 2 * n + 1 →
      alternate (a ++ o :: b) = alternate a ++ .inr o.type :: alternate b := by
  intro n
  induction n with
  | zero =>
    intro a ha
    match a, ha with
    | [t], _ => rfl
  | succ n ih =>
    intro a ha
    match a, ha with
    | t :: x :: rest, ha =>
      have h2 : rest.length = 2 * n + 1 := by
        simp only [List.length_cons] at ha; omega
      rw [List.cons_append, List.cons_append, alternate_cons_cons, ih rest h2,
        alternate_cons_cons]
      rfl

theorem alternate_append (a : List Token) (o : Token) (b : List Token)
    (h : a.length % 2 = 1) :
    alternate (a ++ o :: b) = alternate a ++ .inr o.type :: alternate b :=
  alternate_append_aux o b (a.length / 2) a (by omega)

/-- What the loop of `parseBinaryExpression` returns: it has moved past an
even number of tokens, none of them `END_OF_FIELD`, which extend the in-order
sequence of `left` to that of the returned tree; on return the current
token is `END_OF_FIELD` or has binding power at most `prev`. -/
theorem parseLoop_reads (T : Tables) (recurse : Int → Parser → Outcome (AstNode × Parser))
    (prev : Int)
    (hrec : ∀ prec p t p', recurse prec p = .ok (t, p') →
      ∃ cs, Reads T p cs p' ∧ cs.length % 2 = 1 ∧ t.inorder = alternate cs ∧
        (∀ x ∈ cs, x.type ≠ T.END_OF_FIELD) ∧
        (p'.currentTok.type = T.END_OF_FIELD ∨
          T.OPERATOR_PRECEDENCE p'.currentTok.type ≤ prec)) :
    ∀ (j : Nat) (left : AstNode) (nodeType : Nat) (q : Parser) (tree : AstNode) (p' : Parser),
      nodeType = q.currentTok.type → nodeType ≠ T.END_OF_FIELD →
      parseLoop T recurse prev j left nodeType q = .ok (tree, p') →
      ∃ cs, Reads T q cs p' ∧ cs.length % 2 = 0 ∧
        (∀ cL, cL.length % 2 = 1 → left.inorder = alternate cL →
          tree.inorder = alternate (cL ++ cs)) ∧
        (∀ x ∈ cs, x.type ≠ T.END_OF_FIELD) ∧
        (p'.currentTok.type = T.END_OF_FIELD ∨
          T.OPERATOR_PRECEDENCE p'.currentTok.type ≤ prev) := by
  intro j
  induction j with
  | zero => intro left nodeType q tree p' _ _ h; cases h
  | succ j ih =>
    intro left nodeType q tree p' hnt hne h
    rw [parseLoop_succ] at h
    by_cases hb : T.OPERATOR_PRECEDENCE nodeType > prev
    · rw [if_pos hb] at h
      obtain ⟨q1, hs, h⟩ := bind_eq_ok h
      obtain ⟨res, hr, h⟩ := bind_eq_ok h
      obtain ⟨t2, q2⟩ := res
      obtain ⟨c2, hreads2, hodd2, hin2, hne2, _⟩ := hrec _ _ _ _ hr
      have hreads : Reads T q (q.currentTok :: c2) q2 := Reads.cons hs hreads2
      have hstep : ∀ cL : List Token, cL.length % 2 = 1 → left.inorder = alternate cL →
          (AstNode.parent nodeType left t2).inorder = alternate (cL ++ q.currentTok :: c2) := by
        intro cL hodd hin
        rw [alternate_append cL q.currentTok c2 hodd, ← hin, ← hin2, ← hnt]
        rfl
      have hne' : ∀ x ∈ q.currentTok :: c2, x.type ≠ T.END_OF_FIELD := by
        intro x hx
        rcases List.mem_cons.mp hx with rfl | hx
        · rw [← hnt]; exact hne
        · exact hne2 x hx
      simp only at h
      by_cases heof : q2.currentTok.type = T.END_OF_FIELD
      · rw [if_pos heof] at h
        cases h
        refine ⟨q.currentTok :: c2, hreads, ?_, hstep, hne', Or.inl heof⟩
        simp only [List.length_cons]; omega
      · rw [if_neg heof] at h
        obtain ⟨cs, hr3, hev, hin3, hne3, hfin⟩ := ih _ _ _ _ _ rfl heof h
        refine ⟨(q.currentTok :: c2) ++ cs, reads_append hreads hr3, ?_, ?_, ?_, hfin⟩
        · simp only [List.length_append, List.length_cons]; omega
        · intro cL hodd hin
          rw [← List.append_assoc]
          exact hin3 (cL ++ q.currentTok :: c2)
            (by simp only [List.length_append, List.length_cons]; omega) (hstep cL hodd hin)
        · intro x hx
          rcases List.mem_append.mp hx with hx | hx
          · exact hne' x hx
          · exact hne3 x hx
    · rw [if_neg hb] at h
      cases h
      refine ⟨[], Reads.nil _, rfl, ?_, ?_, Or.inr ?_⟩
      · intro cL _ hin; simpa using hin
      · intro x hx; cases hx
      · rw [← hnt]; omega

/-- What `parseBinaryExpression` returns: it has moved past an odd number of
tokens, none of them `END_OF_FIELD`, whose sequence is the in-order sequence of
the returned tree; on return the current token is `END_OF_FIELD` or has
binding power at most `prev`. -/
theorem parseBinaryExpression_reads (T : Tables) :
    ∀ (k : Nat) (prev : Int) (p : Parser) (t : AstNode) (p' : Parser),
      parseBinaryExpression T k prev p = .ok (t, p') →
      ∃ cs, Reads T p cs p' ∧ cs.length % 2 = 1 ∧ t.inorder = alternate cs ∧
        (∀ x ∈ cs, x.type ≠ T.END_OF_FIELD) ∧
        (p'.currentTok.type = T.END_OF_FIELD ∨
          T.OPERATOR_PRECEDENCE p'.currentTok.type ≤ prev) := by
  intro k
  induction k with
  | zero => intro prev p t p' h; cases h
  | succ k ih =>
    intro prev p t p' h
    rw [parseBinaryExpression_succ] at h
    obtain ⟨res, ht, h⟩ := bind_eq_ok h
    obtain ⟨t1, p1⟩ := res
    obtain ⟨hp, rfl, hs⟩ := parseTerminalNode_ok T p t1 p1 ht
    have hpe : p.currentTok.type ≠ T.END_OF_FIELD := by rw [hp]; exact T.distinct
    simp only at h
    by_cases heof : p1.currentTok.type = T.END_OF_FIELD
    · rw [if_pos heof] at h
      cases h
      refine ⟨[p.currentTok], reads_single hs, rfl, rfl, ?_, Or.inl heof⟩
      intro x hx
      rw [List.mem_singleton.mp hx]
      exact hpe
    · rw [if_neg heof] at h
      obtain ⟨cs, hr, hev, hin, hne, hfin⟩ :=
        parseLoop_reads T (parseBinaryExpression T k) prev (fun prec p0 t0 p0' h0 =>
          ih prec p0 t0 p0' h0) k _ _ _ _ _ rfl heof h
      refine ⟨p.currentTok :: cs, Reads.cons hs hr, ?_, ?_, ?_, hfin⟩
      · simp only [List.length_cons]; omega
      · exact hin [p.currentTok] rfl rfl
      · intro x hx
        rcases List.mem_cons.mp hx with rfl | hx
        · exact hpe
        · exact hne x hx

theorem scanTokens_succ (T : Tables) (n : Nat) (p : Parser) :
    scanTokens T (n + 1) p =
      (scanToken T p).bind fun p1 =>
        (scanTokens T n p1).bind fun toks => .ok (p1.currentTok :: toks) := rfl

theorem reads_head_eq {T : Tables} {p p' : Parser} {t : Token} {toks : List Token}
    (h : Reads T p (t :: toks) p') : t = p.currentTok := by
  cases h
  rfl

/-- C10 (amended). The tree represents the tokens the parser has moved
past: for every text and every table, if `scanToken` followed by
`parseBinaryExpression(0)` returns a tree in a run in which every terminal
was required at a `PRIMITIVE` token (every leaf of the tree holds a
`PRIMITIVE` token: control never reached the end of `parseTerminalNode`
without a `return`, and `std::from_chars` was never given an invalid range),
then the tokens scanned before the current token on return are not
`END_OF_FIELD` and their sequence, operands by their token and operators by
their kind, is the in-order sequence of the tree; the current token on
return is `END_OF_FIELD` or has binding power at most 0.  When every kind
other than `END_OF_FIELD` has binding power above 0, the current token on
return is `END_OF_FIELD`, so that the tree covers the complete token
sequence of the text.  Nothing is said of a run that reaches the missing
`return` (a text that lacks an operand, such as `1+`): the embedding does
not follow the program there, and the trees it returns are all of the kind
described by the hypothesis on the leaves. -/
theorem tree_covers_tokens (T : Tables) (code : List Char) (tree : AstNode) (p' : Parser)
    (h : parse T code = .ok (tree, p'))
    (hterminals : ∀ tok ∈ tree.leaves, tok.type = T.PRIMITIVE) :
    ∃ toks : List Token,
      scanTokens T (toks.length + 1) (Parser.new T code) = .ok (toks ++ [p'.currentTok]) ∧
      tree.inorder = alternate toks ∧
      (∀ x ∈ toks, x.type ≠ T.END_OF_FIELD) ∧
      (p'.currentTok.type = T.END_OF_FIELD ∨ T.OPERATOR_PRECEDENCE p'.currentTok.type ≤ 0) ∧
      ((∀ k, k ≠ T.END_OF_FIELD → 0 < T.OPERATOR_PRECEDENCE k) →
        p'.currentTok.type = T.END_OF_FIELD) := by
  unfold parse at h
  obtain ⟨p0, hs, h⟩ := bind_eq_ok h
  obtain ⟨cs, hr, hodd, hin, hne, hfin⟩ := parseBinaryExpression_reads T _ _ _ _ _ h
  refine ⟨cs, ?_, hin, hne, hfin, ?_⟩
  · match cs, hr, hodd with
    | t :: cs', hr, _ =>
      have ht := reads_head_eq hr
      have := reads_scanTokens hr
      simp only [List.length_cons, List.cons_append, List.tail_cons] at this
      rw [List.length_cons, scanTokens_succ, hs]
      simp only [Outcome.bind, this, ht, List.cons_append]
  · intro hall
    rcases hfin with hfin | hfin
    · exact hfin
    · by_contra hc
      have := hall _ hc
      omega

/-- Instance of `tree_covers_tokens` at `1+2*3` with the sample table. -/
theorem tree_covers_tokens_witness :
    ∃ toks : List Token,
      scanTokens sampleTables (toks.length + 1) (Parser.new sampleTables ['1', '+', '2', '*', '3'])
        = .ok (toks ++ [(⟨5, none, Slot.empty⟩ : Token)]) ∧
      (AstNode.parent 0 (digitLeaf sampleTables '1' 0)
        (.parent 2 (digitLeaf sampleTables '2' 2) (digitLeaf sampleTables '3' 4))).inorder =
        alternate toks ∧
      (∀ x ∈ toks, x.type ≠ sampleTables.END_OF_FIELD) ∧
      ((5 : Nat) = sampleTables.END_OF_FIELD ∨ sampleTables.OPERATOR_PRECEDENCE 5 ≤ 0) ∧
      ((∀ k, k ≠ sampleTables.END_OF_FIELD → 0 < sampleTables.OPERATOR_PRECEDENCE k) →
        (5 : Nat) = sampleTables.END_OF_FIELD) :=
  tree_covers_tokens sampleTables ['1', '+', '2', '*', '3']
    (.parent 0 (digitLeaf sampleTables '1' 0)
      (.parent 2 (digitLeaf sampleTables '2' 2) (digitLeaf sampleTables '3' 4)))
    ⟨['1', '+', '2', '*', '3'], 5, ⟨5, none, Slot.empty⟩⟩ (by decide) (by decide)

/-- C10, as stated, fails at the text `1 2` with the sample table, in which
every operator kind has binding power above 0 and `END_OF_FIELD` has a
binding power below that of every other kind: `scanToken` followed by
`parseBinaryExpression(0)` returns the single leaf `1` while the current
token is the `PRIMITIVE` token `2`, not `END_OF_FIELD`; the token sequence of
the text is `1`, `2`, `END_OF_FIELD`, and `2` is not in the tree. -/
theorem token_left_out_of_tree :
    (∀ k, k < sampleTables.OPERATOR_TOKENS.length → 0 < sampleTables.OPERATOR_PRECEDENCE k) ∧
    (∀ k, k < sampleTables.END_OF_FIELD →
      sampleTables.OPERATOR_PRECEDENCE sampleTables.END_OF_FIELD <
        sampleTables.OPERATOR_PRECEDENCE k) ∧
    parse sampleTables ['1', ' ', '2'] =
      .ok (.leaf ⟨4, some (.int 1), ⟨some 0, 1⟩⟩,
           ⟨['1', ' ', '2'], 3, ⟨4, some (.int 2), ⟨some 2, 1⟩⟩⟩) ∧
    (4 : Nat) ≠ sampleTables.END_OF_FIELD ∧
    scanTokens sampleTables 3 (Parser.new sampleTables ['1', ' ', '2']) =
      .ok [⟨4, some (.int 1), ⟨some 0, 1⟩⟩, ⟨4, some (.int 2), ⟨some 2, 1⟩⟩,
           ⟨5, none, Slot.empty⟩] ∧
    (AstNode.leaf ⟨4, some (.int 1), ⟨some 0, 1⟩⟩).inorder ≠
      alternate [⟨4, some (.int 1), ⟨some 0, 1⟩⟩, ⟨4, some (.int 2), ⟨some 2, 1⟩⟩] := by
  refine ⟨?_, ?_, by decide, by decide, by decide, by decide⟩
  · intro k hk
    have hk4 : k < 4 := hk
    simp only [sampleTables]
    split_ifs <;> omega
  · intro k hk
    have hk5 : k < 5 := hk
    show sampleTables.OPERATOR_PRECEDENCE 5 < sampleTables.OPERATOR_PRECEDENCE k
    simp only [sampleTables]
    split_ifs <;> omega

/-! ## Raw tokens that reach the end of the text -/

/-- A two-character run at the end of the text: `consume` moves the cursor
past both characters and returns the slot of the first one only. -/
theorem consume_two_at_end (T : Tables) {code : List Char} {r : Nat} {c d : Char}
    (h : code.drop r = [c, d]) (hc : isAnyOf c WHITESPACE = false)
    (hd : check T (isAnyOf c T.OPERATOR_CHARACTERS) d = true) :
    consume T code r = (r + 2, ⟨some r, 1⟩) := by
  simp [consume, skipws_of_head h hc, h, consumeLoop, hd]

/-- Two digits that are the whole rest of the text are scanned as the
integer literal of the first digit, the cursor at the end of the text. -/
theorem scanToken_two_digits_at_end (T : Tables) (p : Parser) {a b : Char}
    (h : p.code.drop p.r = [a, b]) (ha : a.isDigit = true) (hb : b.isDigit = true)
    (ha2 : a ∉ T.OPERATOR_CHARACTERS) (hb2 : b ∉ T.OPERATOR_CHARACTERS)
    (hnot : [a] ∉ T.OPERATOR_TOKENS) :
    scanToken T p = .ok ⟨p.code, p.r + 2,
      ⟨T.PRIMITIVE, some (.int ((a.toNat - 48 : Nat) : Int)), ⟨some p.r, 1⟩⟩⟩ := by
  have hc : consume T p.code p.r = (p.r + 2, ⟨some p.r, 1⟩) :=
    consume_two_at_end T h (isAnyOf_whitespace_of_isDigit ha)
      (by simp [check, isAnyOf_eq_false_iff.mpr ha2, isAnyOf_eq_false_iff.mpr hb2,
            isAnyOf_whitespace_of_isDigit hb])
  have hnil : p.code.drop (p.r + 2) = [] := by
    have := drop_succ_of_drop (drop_succ_of_drop h)
    simpa using this
  have hc1 : consume T p.code (p.r + 2) = (p.r + 2, Slot.empty) := consume_of_nil T hnil
  have h1 := scanToken_of_integer T p (by simp [hc]) (by simp [hc, chars_single h, hnot])
    (by simp [hc, chars_single h, ha])
    (by simp [hc, hc1, Slot.chars, Slot.empty])
  simpa [hc, chars_single h, fromCharsInt_single ha] using h1

/-- C3, on the code: a text of two digits `a b` (ordinary word characters,
`a` alone not a spelling) is not parsed to the literal of its decimal value:
`consume` returns the cursor 2 (end of text) but the slot `a` only, because
its loop returns at the end of the text before it extends `slot`, and
`scanToken` followed by `parseBinaryExpression(0)` returns the single leaf
holding the value of the digit `a`. -/
theorem single_literal_truncated (T : Tables) (a b : Char)
    (ha : a.isDigit = true) (hb : b.isDigit = true)
    (ha2 : a ∉ T.OPERATOR_CHARACTERS) (hb2 : b ∉ T.OPERATOR_CHARACTERS)
    (hnot : [a] ∉ T.OPERATOR_TOKENS) :
    consume T [a, b] 0 = (2, ⟨some 0, 1⟩) ∧
    parse T [a, b] =
      .ok (digitLeaf T a 0, ⟨[a, b], 2, ⟨T.END_OF_FIELD, none, Slot.empty⟩⟩) := by
  have hc : consume T [a, b] 0 = (2, ⟨some 0, 1⟩) :=
    consume_two_at_end T (show List.drop 0 [a, b] = [a, b] from rfl)
      (isAnyOf_whitespace_of_isDigit ha)
      (by simp [check, isAnyOf_eq_false_iff.mpr ha2, isAnyOf_eq_false_iff.mpr hb2,
            isAnyOf_whitespace_of_isDigit hb])
  have s0 : ∀ t, scanToken T ⟨[a, b], 0, t⟩ = .ok ⟨[a, b], 2,
      ⟨T.PRIMITIVE, some (.int ((a.toNat - 48 : Nat) : Int)), ⟨some 0, 1⟩⟩⟩ := fun t =>
    scanToken_two_digits_at_end T ⟨[a, b], 0, t⟩ (show List.drop 0 [a, b] = [a, b] from rfl)
      ha hb ha2 hb2 hnot
  have s2 : ∀ t, scanToken T ⟨[a, b], 2, t⟩ = .ok ⟨[a, b], 2,
      ⟨T.END_OF_FIELD, none, Slot.empty⟩⟩ := fun t =>
    scanToken_at_end T ⟨[a, b], 2, t⟩ (show List.drop 2 [a, b] = [] from rfl)
  refine ⟨hc, ?_⟩
  simp [parse, Parser.new, parseBinaryExpression, parseTerminalNode, Outcome.bind, s0, s2,
    digitLeaf]

/-- C3 at the text `42` with the sample table: the slot is `4`, the tree is
the single leaf 4 and its value is 4. -/
theorem single_literal_42 :
    (consume sampleTables ['4', '2'] 0 = (2, ⟨some 0, 1⟩) ∧
      parse sampleTables ['4', '2'] =
        .ok (digitLeaf sampleTables '4' 0,
             ⟨['4', '2'], 2, ⟨sampleTables.END_OF_FIELD, none, Slot.empty⟩⟩)) ∧
    digitLeaf sampleTables '4' 0 = .leaf ⟨4, some (.int 4), ⟨some 0, 1⟩⟩ ∧
    (parse sampleTables ['4', '2']).bind
        (fun res => .ok (interpretAst sampleTables res.1)) = .ok (some 4) :=
  ⟨single_literal_truncated sampleTables '4' '2' (by decide) (by decide) (by decide)
    (by decide) (by decide), by decide, by decide⟩

/-- C5, on the code: on the text `3.14`, the period an operator character
and digits ordinary word characters, the second looked-ahead raw token
reaches the end of the text, so `consume` returns the slot `1` for it
(cursor 4); the range converted by `std::from_chars` is `3.1`, and the token
is the floating-point literal read from `3.1` without the digit `4`; the
cursor is at the end of the text. -/
theorem float_fraction_truncated (T : Tables)
    (hp : '.' ∈ T.OPERATOR_CHARACTERS)
    (hdig : ∀ d : Char, d.isDigit = true → d ∉ T.OPERATOR_CHARACTERS)
    (hnot : ['3'] ∉ T.OPERATOR_TOKENS)
    (hconv : T.doubleInRange ['3', '.', '1'] = true) :
    consume T ['3', '.', '1', '4'] 2 = (4, ⟨some 2, 1⟩) ∧
    scanToken T (Parser.new T ['3', '.', '1', '4']) =
      .ok ⟨['3', '.', '1', '4'], 4,
           ⟨T.PRIMITIVE, some (.floating ['3', '.', '1']), ⟨some 0, 1⟩⟩⟩ := by
  have h3 := hdig '3' (by decide)
  have h1 := hdig '1' (by decide)
  have h4 := hdig '4' (by decide)
  have c0 : consume T ['3', '.', '1', '4'] 0 = (1, ⟨some 0, 1⟩) :=
    consume_single T (show List.drop 0 ['3', '.', '1', '4'] = '3' :: '.' :: ['1', '4'] from rfl)
      (by decide) (by simp [check, isAnyOf_eq_false_iff.mpr h3, isAnyOf_eq_true_iff.mpr hp])
  have c1 : consume T ['3', '.', '1', '4'] 1 = (2, ⟨some 1, 1⟩) :=
    consume_single T (show List.drop 1 ['3', '.', '1', '4'] = '.' :: '1' :: ['4'] from rfl)
      (by decide) (by simp [check, isAnyOf_eq_false_iff.mpr h1, isAnyOf_eq_true_iff.mpr hp])
  have c2 : consume T ['3', '.', '1', '4'] 2 = (4, ⟨some 2, 1⟩) :=
    consume_two_at_end T (show List.drop 2 ['3', '.', '1', '4'] = ['1', '4'] from rfl)
      (by decide)
      (by
        have w4 : isAnyOf '4' WHITESPACE = false := by decide
        simp [check, isAnyOf_eq_false_iff.mpr h1, isAnyOf_eq_false_iff.mpr h4, w4])
  have hidx : ¬ find T.OPERATOR_TOKENS ['3'] < T.OPERATOR_TOKENS.length :=
    fun hlt => hnot ((find_lt_iff _ _).mp hlt)
  refine ⟨c2, ?_⟩
  simp [scanToken, scanFloatLiteral, Parser.new, c0, c1, c2, Slot.chars, hidx, hconv,
    Outcome.bind]

/-- C5 at the text `3.14` with the sample table. -/
theorem float_3_14_truncated :
    (consume sampleTables ['3', '.', '1', '4'] 2 = (4, ⟨some 2, 1⟩) ∧
      scanToken sampleTables (Parser.new sampleTables ['3', '.', '1', '4']) =
        .ok ⟨['3', '.', '1', '4'], 4,
             ⟨sampleTables.PRIMITIVE, some (.floating ['3', '.', '1']), ⟨some 0, 1⟩⟩⟩) ∧
    scanTokens sampleTables 2 (Parser.new sampleTables ['3', '.', '1', '4']) =
      .ok [⟨sampleTables.PRIMITIVE, some (.floating ['3', '.', '1']), ⟨some 0, 1⟩⟩,
           ⟨sampleTables.END_OF_FIELD, none, Slot.empty⟩] :=
  ⟨float_fraction_truncated sampleTables (by decide) sampleTables_digits (by decide) rfl,
    by decide⟩

/-- C6, on the code: when an all-digit raw token reaches the end of the text
(two digits `a b`, ordinary word characters), the whole part handed to
`scanFloatLiteral` is the slot `a`, the lookahead is empty, the token is the
integer literal of `a`, and the cursor after `scanToken` is 2, one past the
position just after that whole part. -/
theorem integer_at_end_cursor (T : Tables) (a b : Char)
    (ha : a.isDigit = true) (hb : b.isDigit = true)
    (ha2 : a ∉ T.OPERATOR_CHARACTERS) (hb2 : b ∉ T.OPERATOR_CHARACTERS)
    (hnot : [a] ∉ T.OPERATOR_TOKENS) :
    (consume T [a, b] 0).2 = ⟨some 0, 1⟩ ∧
    scanToken T (Parser.new T [a, b]) =
      .ok ⟨[a, b], 2, ⟨T.PRIMITIVE, some (.int ((a.toNat - 48 : Nat) : Int)), ⟨some 0, 1⟩⟩⟩ := by
  have hc : consume T [a, b] 0 = (2, ⟨some 0, 1⟩) :=
    consume_two_at_end T (show List.drop 0 [a, b] = [a, b] from rfl)
      (isAnyOf_whitespace_of_isDigit ha)
      (by simp [check, isAnyOf_eq_false_iff.mpr ha2, isAnyOf_eq_false_iff.mpr hb2,
            isAnyOf_whitespace_of_isDigit hb])
  refine ⟨by rw [hc], ?_⟩
  exact scanToken_two_digits_at_end T (Parser.new T [a, b])
    (show List.drop 0 [a, b] = [a, b] from rfl) ha hb ha2 hb2 hnot

/-- C6 at the text `12` with the sample table: the token is the integer 1
and the cursor is 2.  On `3.x` the token is the integer 3 and the cursor is
1, just after the whole part. -/
theorem integer_12_cursor :
    ((consume sampleTables ['1', '2'] 0).2 = ⟨some 0, 1⟩ ∧
      scanToken sampleTables (Parser.new sampleTables ['1', '2']) =
        .ok ⟨['1', '2'], 2, ⟨sampleTables.PRIMITIVE, some (.int 1), ⟨some 0, 1⟩⟩⟩) ∧
    scanToken sampleTables (Parser.new sampleTables ['3', '.', 'x']) =
      .ok ⟨['3', '.', 'x'], 1, ⟨sampleTables.PRIMITIVE, some (.int 3), ⟨some 0, 1⟩⟩⟩ :=
  ⟨integer_at_end_cursor sampleTables '1' '2' (by decide) (by decide) (by decide) (by decide)
    (by decide), by decide⟩

/-! ## Literal values -/

theorem takeWhile_isDigit_of_all {l : List Char} (h : l.all Char.isDigit = true) :
    l.takeWhile Char.isDigit = l := by
  rw [List.takeWhile_eq_self_iff]
  intro c hc
  exact (List.all_eq_true.mp h) c hc

/-- On a non-empty run of digits the integer conversion succeeds exactly
when the value of the digits is representable in an `int`. -/
theorem fromCharsInt_of_digits {l : List Char} (hne : l ≠ [])
    (h : l.all Char.isDigit = true) :
    fromCharsInt l =
      if digitsValue l ≤ 2147483647 then some (digitsValue l : Int) else none := by
  have htw := takeWhile_isDigit_of_all h
  match l, hne, h, htw with
  | c :: rest, _, h, htw =>
    have hc : c.isDigit = true := by
      have := List.all_eq_true.mp h c (List.mem_cons_self _ _)
      exact this
    have hminus : c ≠ '-' := by rintro rfl; simp [Char.isDigit] at hc
    unfold fromCharsInt
    split
    · rename_i r heq
      simp at heq
      exact absurd heq.1 hminus
    · simp only [htw]
      simp

/-- A token that carries a literal value is `PRIMITIVE`. -/
theorem scanToken_value_primitive (T : Tables) (p p' : Parser) (h : scanToken T p = .ok p')
    (hv : p'.currentTok.defaultValue ≠ none) : p'.currentTok.type = T.PRIMITIVE := by
  unfold scanToken at h
  simp only at h
  split at h
  · cases h; exact absurd rfl hv
  · split at h
    · cases h; exact absurd rfl hv
    · split at h
      · obtain ⟨res, _, hk⟩ := bind_eq_ok h
        cases hk
        rfl
      · cases h; exact absurd rfl hv

/-- A non-empty slot returned by `consume` starts at the first character
that is not whitespace. -/
theorem consume_data (T : Tables) (code : List Char) (r : Nat)
    (h : (consume T code r).2.size ≠ 0) :
    ∃ c rest, code.drop (skipws code r) = c :: rest ∧
      (consume T code r).2.data = some (skipws code r) := by
  cases hd : code.drop (skipws code r) with
  | nil =>
    rw [consume_of_skipws_nil T hd] at h
    exact absurd rfl h
  | cons c rest =>
    refine ⟨c, rest, rfl, ?_⟩
    rw [consume_of_skipws_cons T hd]
    by_cases he : rest.isEmpty = true
    · rw [if_pos he]
    · rw [if_neg he]
      exact (consumeLoop_spec T _ rest _ _).2.2.1

theorem consume_chars_ne_nil (T : Tables) (code : List Char) (r : Nat)
    (h : (consume T code r).2.size ≠ 0) : (consume T code r).2.chars code ≠ [] := by
  obtain ⟨c, rest, hd, hdata⟩ := consume_data T code r h
  unfold Slot.chars
  rw [hdata]
  simp only [hd]
  cases hs : (consume T code r).2.size with
  | zero => exact absurd hs h
  | succ n => simp

/-- The integer branch of `scanFloatLiteral`: the lookahead is not a period
followed by digits; the value is stored when the integer conversion
succeeds, and otherwise nothing is changed and `false` is returned. -/
theorem scanFloatLiteral_of_integer (T : Tables) (w : Slot) (p : Parser)
    (hlook : ¬ ((consume T p.code p.r).2.chars p.code = ['.'] ∧
      ((consume T p.code (consume T p.code p.r).1).2.chars p.code).all Char.isDigit = true)) :
    scanFloatLiteral T w p =
      match fromCharsInt (w.chars p.code) with
      | some num =>
        .ok (true, { p with currentTok := { p.currentTok with defaultValue := some (.int num) } })
      | none => .ok (false, p) := by
  simp only [scanFloatLiteral, hlook, if_false]

/-- The floating-point branch of `scanFloatLiteral` on a range that lies in
the text: the value is stored and the cursor is moved past the two
looked-ahead raw tokens when the conversion succeeds, and otherwise nothing
is changed and `false` is returned. -/
theorem scanFloatLiteral_of_floating (T : Tables) (w : Slot) (p : Parser) (b d : Nat)
    (hperiod : (consume T p.code p.r).2.chars p.code = ['.'])
    (hdec : ((consume T p.code (consume T p.code p.r).1).2.chars p.code).all Char.isDigit = true)
    (hb : w.data = some b)
    (hd : (consume T p.code (consume T p.code p.r).1).2.data = some d) :
    scanFloatLiteral T w p =
      if T.doubleInRange ((p.code.drop b).take
          (d + (consume T p.code (consume T p.code p.r).1).2.size - b)) = true then
        .ok (true, { p with
          r := (consume T p.code (consume T p.code p.r).1).1,
          currentTok := { p.currentTok with
            defaultValue := some (.floating ((p.code.drop b).take
              (d + (consume T p.code (consume T p.code p.r).1).2.size - b))) } })
      else .ok (false, p) := by
  simp only [scanFloatLiteral, hperiod, hdec, and_self, if_true, hb, hd]

/-- C11 (amended). Token invariant: for every text and cursor position, a
token produced by `scanToken` that carries a literal value is `PRIMITIVE`.
For every raw token that consists only of decimal digits (and is not the
spelling of an operator) the numeric conversion in `scanFloatLiteral`
succeeds exactly in these cases, and whenever it succeeds the token is
`PRIMITIVE` and carries the converted value:
on the integer branch (the lookahead is not a period followed by a
digit-only raw token), when the value of the digits is at most 2147483647,
the largest `int`, and the value is then that number; above 2147483647
`scanFloatLiteral` returns `false` and stores no value;
on the floating-point branch (the lookahead is a period followed by a
non-empty digit-only raw token), when `std::from_chars` accepts the range
from the start of the raw token to the end of the second looked-ahead token
as a `double`; the value is then read from that range and the cursor is
after the second looked-ahead token; otherwise `scanFloatLiteral` returns
`false` and stores no value.
Nothing is said of the token that `scanToken` leaves after a conversion that
failed, nor of a period followed by an empty lookahead. -/
theorem literal_value_of_token (T : Tables) (p : Parser) :
    (∀ p' : Parser, scanToken T p = .ok p' →
      p'.currentTok.defaultValue ≠ none → p'.currentTok.type = T.PRIMITIVE) ∧
    (let c := consume T p.code p.r
     let str := c.2
     let c1 := consume T p.code c.1
     let c2 := consume T p.code c1.1
     let p2 : Parser := ⟨p.code, c.1, ⟨T.defaultType, none, str⟩⟩
     str.size ≠ 0 → str.chars p.code ∉ T.OPERATOR_TOKENS →
     (str.chars p.code).all Char.isDigit = true →
       (¬ (c1.2.chars p.code = ['.'] ∧ (c2.2.chars p.code).all Char.isDigit = true) →
         (digitsValue (str.chars p.code) ≤ 2147483647 →
           scanFloatLiteral T str p2 =
             .ok (true, ⟨p.code, c.1,
               ⟨T.defaultType, some (.int (digitsValue (str.chars p.code) : Int)), str⟩⟩) ∧
           scanToken T p =
             .ok ⟨p.code, c.1,
               ⟨T.PRIMITIVE, some (.int (digitsValue (str.chars p.code) : Int)), str⟩⟩) ∧
         (2147483647 < digitsValue (str.chars p.code) →
           scanFloatLiteral T str p2 = .ok (false, p2))) ∧
       (c1.2.chars p.code = ['.'] → (c2.2.chars p.code).all Char.isDigit = true →
         ∀ b d : Nat, str.data = some b → c2.2.data = some d →
           (T.doubleInRange ((p.code.drop b).take (d + c2.2.size - b)) = true →
             scanFloatLiteral T str p2 =
               .ok (true, ⟨p.code, c2.1,
                 ⟨T.defaultType,
                  some (.floating ((p.code.drop b).take (d + c2.2.size - b))), str⟩⟩) ∧
             scanToken T p =
               .ok ⟨p.code, c2.1,
                 ⟨T.PRIMITIVE,
                  some (.floating ((p.code.drop b).take (d + c2.2.size - b))), str⟩⟩) ∧
           (T.doubleInRange ((p.code.drop b).take (d + c2.2.size - b)) = false →
             scanFloatLiteral T str p2 = .ok (false, p2)))) := by
  refine ⟨fun p' h => scanToken_value_primitive T p p' h, ?_⟩
  intro c str c1 c2 p2 hsize hmem hdig
  have hidx : ¬ find T.OPERATOR_TOKENS (str.chars p.code) < T.OPERATOR_TOKENS.length :=
    fun hlt => hmem ((find_lt_iff _ _).mp hlt)
  have hscan : scanToken T p =
      (scanFloatLiteral T str p2).bind fun res =>
        .ok { res.2 with currentTok := { res.2.currentTok with type := T.PRIMITIVE } } := by
    simp only [scanToken, hsize, hidx, hdig, if_false, if_true, c, str, p2]
  refine ⟨fun hlook => ?_, fun hperiod hdec b d hb hd => ?_⟩
  · have hfl := scanFloatLiteral_of_integer T str p2 hlook
    rw [fromCharsInt_of_digits (consume_chars_ne_nil T p.code p.r hsize) hdig] at hfl
    refine ⟨fun hle => ?_, fun hgt => ?_⟩
    · rw [if_pos hle] at hfl
      refine ⟨hfl, ?_⟩
      rw [hscan, hfl]
      rfl
    · rw [if_neg (Nat.not_le.mpr hgt)] at hfl
      exact hfl
  · have hfl := scanFloatLiteral_of_floating T str p2 b d hperiod hdec hb hd
    refine ⟨fun hconv => ?_, fun hconv => ?_⟩
    · rw [if_pos hconv] at hfl
      refine ⟨hfl, ?_⟩
      rw [hscan, hfl]
      rfl
    · rw [if_neg (by simp [hconv])] at hfl
      exact hfl

/-- C11 with the sample table: the integer conversion succeeds on `7` and
fails on `99999999999`; the floating-point conversion succeeds on `3.14 `,
and fails on the same text with a table whose conversion to `double` rejects
every range. -/
theorem literal_value_of_token_witness :
    (scanFloatLiteral sampleTables ⟨some 0, 1⟩ ⟨['7'], 1, ⟨0, none, ⟨some 0, 1⟩⟩⟩ =
        .ok (true, ⟨['7'], 1, ⟨0, some (.int 7), ⟨some 0, 1⟩⟩⟩) ∧
      scanToken sampleTables (Parser.new sampleTables ['7']) =
        .ok ⟨['7'], 1, ⟨sampleTables.PRIMITIVE, some (.int 7), ⟨some 0, 1⟩⟩⟩) ∧
    scanFloatLiteral sampleTables ⟨some 0, 10⟩
        ⟨['9', '9', '9', '9', '9', '9', '9', '9', '9', '9', '9'], 11,
          ⟨0, none, ⟨some 0, 10⟩⟩⟩ =
      .ok (false, ⟨['9', '9', '9', '9', '9', '9', '9', '9', '9', '9', '9'], 11,
          ⟨0, none, ⟨some 0, 10⟩⟩⟩) ∧
    (scanFloatLiteral sampleTables ⟨some 0, 1⟩
          ⟨['3', '.', '1', '4', ' '], 1, ⟨0, none, ⟨some 0, 1⟩⟩⟩ =
        .ok (true, ⟨['3', '.', '1', '4', ' '], 4,
          ⟨0, some (.floating ['3', '.', '1', '4']), ⟨some 0, 1⟩⟩⟩) ∧
      scanToken sampleTables (Parser.new sampleTables ['3', '.', '1', '4', ' ']) =
        .ok ⟨['3', '.', '1', '4', ' '], 4,
          ⟨sampleTables.PRIMITIVE, some (.floating ['3', '.', '1', '4']), ⟨some 0, 1⟩⟩⟩) ∧
    scanFloatLiteral { sampleTables with doubleInRange := fun _ => false } ⟨some 0, 1⟩
        ⟨['3', '.', '1', '4', ' '], 1, ⟨0, none, ⟨some 0, 1⟩⟩⟩ =
      .ok (false, ⟨['3', '.', '1', '4', ' '], 1, ⟨0, none, ⟨some 0, 1⟩⟩⟩) :=
  ⟨(((literal_value_of_token sampleTables (Parser.new sampleTables ['7'])).2
      (by decide) (by decide) (by decide)).1 (by decide)).1 (by decide),
   (((literal_value_of_token sampleTables
      (Parser.new sampleTables ['9', '9', '9', '9', '9', '9', '9', '9', '9', '9', '9'])).2
      (by decide) (by decide) (by decide)).1 (by decide)).2 (by decide),
   ((literal_value_of_token sampleTables (Parser.new sampleTables ['3', '.', '1', '4', ' '])).2
      (by decide) (by decide) (by decide)).2 (by decide) (by decide) 0 2 (by decide) (by decide)
      |>.1 rfl,
   ((literal_value_of_token { sampleTables with doubleInRange := fun _ => false }
      (Parser.new { sampleTables with doubleInRange := fun _ => false }
        ['3', '.', '1', '4', ' '])).2
      (by decide) (by decide) (by decide)).2 (by decide) (by decide) 0 2 (by decide) (by decide)
      |>.2 rfl⟩

/-- C11, as stated, fails at the text `99999999999` with the sample table:
the raw token is all digits, the integer conversion fails because the value
is not representable in an `int`, and `scanToken` yields a `PRIMITIVE` token
without a literal value. -/
theorem primitive_without_value :
    scanToken sampleTables
        (Parser.new sampleTables ['9', '9', '9', '9', '9', '9', '9', '9', '9', '9', '9']) =
      .ok ⟨['9', '9', '9', '9', '9', '9', '9', '9', '9', '9', '9'], 11,
           ⟨sampleTables.PRIMITIVE, none, ⟨some 0, 10⟩⟩⟩ ∧
    scanToken sampleTables
        (Parser.new sampleTables ['2', '1', '4', '7', '4', '8', '3', '6', '4', '8', ' ']) =
      .ok ⟨['2', '1', '4', '7', '4', '8', '3', '6', '4', '8', ' '], 10,
           ⟨sampleTables.PRIMITIVE, none, ⟨some 0, 10⟩⟩⟩ := by
  decide

/-! ## The slot and the cursor of `consume` -/

theorem check_eq (T : Tables) (c : Char) :
    check T (isAnyOf c T.OPERATOR_CHARACTERS) =
      if isOperatorSymbol T c then isOperatorSymbol T else isWordCharacter T := by
  funext x
  by_cases h : isAnyOf c T.OPERATOR_CHARACTERS = true
  · simp [check, isOperatorSymbol, h]
  · simp [check, isOperatorSymbol, isWordCharacter, h]

theorem maximalRun_cons (T : Tables) (c : Char) (rest : List Char) :
    maximalRun T (c :: rest) =
      c :: rest.takeWhile (check T (isAnyOf c T.OPERATOR_CHARACTERS)) := by
  rw [check_eq]
  show (if isOperatorSymbol T c then c :: rest.takeWhile (isOperatorSymbol T)
    else c :: rest.takeWhile (isWordCharacter T)) = _
  by_cases h : isOperatorSymbol T c = true
  · rw [if_pos h, if_pos h]
  · rw [if_neg h, if_neg h]

/-- The loop of `consume`, entered with `slot` the text from `b` up to the
cursor `r`: the cursor moves past the characters that pass `check`; the
slot is extended up to the new cursor, except that when every character up
to the end of the text has passed, the last one is not in the slot. -/
theorem consumeLoop_eq (T : Tables) (operatorRun : Bool) (l : List Char) (r b : Nat)
    (hb : b < r) :
    consumeLoop T operatorRun l r ⟨some b, r - b⟩ =
      (r + (l.takeWhile (check T operatorRun)).length,
       if (l.takeWhile (check T operatorRun)).length = l.length ∧ l ≠ [] then
         ⟨some b, r + (l.takeWhile (check T operatorRun)).length - 1 - b⟩
       else ⟨some b, r + (l.takeWhile (check T operatorRun)).length - b⟩) := by
  induction l generalizing r with
  | nil => simp [consumeLoop]
  | cons c rest ih =>
    unfold consumeLoop
    by_cases hc : check T operatorRun c = true
    · rw [if_pos hc, List.takeWhile_cons_of_pos hc]
      by_cases he : rest.isEmpty = true
      · have hnil : rest = [] := List.isEmpty_iff.mp he
        subst hnil
        simp
      · have hne : rest ≠ [] := fun h => he (List.isEmpty_iff.mpr h)
        rw [if_neg he]
        have hup : (⟨some b, r - b⟩ : Slot).upTo (r + 1) = ⟨some b, r + 1 - b⟩ := rfl
        rw [hup, ih (r + 1) (by omega)]
        simp only [List.length_cons, Nat.add_right_cancel_iff, ne_eq, reduceCtorEq,
          not_false_eq_true, and_true, hne]
        refine Prod.ext (by simp only; omega) ?_
        simp only
        split <;> congr 1 <;> omega
    · rw [if_neg hc, List.takeWhile_cons_of_neg hc]
      simp

theorem take_takeWhile_of_le (q : Char → Bool) (l : List Char) (n : Nat)
    (h : n ≤ (l.takeWhile q).length) : (l.takeWhile q).take n = l.take n := by
  induction l generalizing n with
  | nil => simp
  | cons c rest ih =>
    by_cases hc : q c = true
    · rw [List.takeWhile_cons_of_pos hc] at h ⊢
      cases n with
      | zero => rfl
      | succ n =>
        simp only [List.take_succ_cons, List.length_cons] at h ⊢
        rw [ih n (by omega)]
    · rw [List.takeWhile_cons_of_neg hc] at h ⊢
      simp only [List.length_nil, Nat.le_zero_eq] at h
      subst h
      rfl

/-- The result of `consume` when a character other than whitespace is left:
`c` is that character, `rest` the text after it. -/
theorem consume_eq (T : Tables) {code : List Char} {r : Nat} {c : Char} {rest : List Char}
    (h : code.drop (skipws code r) = c :: rest) :
    consume T code r =
      (skipws code r + 1 +
         (rest.takeWhile (check T (isAnyOf c T.OPERATOR_CHARACTERS))).length,
       if (rest.takeWhile (check T (isAnyOf c T.OPERATOR_CHARACTERS))).length = rest.length
           ∧ rest ≠ [] then
         ⟨some (skipws code r),
          (rest.takeWhile (check T (isAnyOf c T.OPERATOR_CHARACTERS))).length⟩
       else
         ⟨some (skipws code r),
          (rest.takeWhile (check T (isAnyOf c T.OPERATOR_CHARACTERS))).length + 1⟩) := by
  rw [consume_of_skipws_cons T h]
  by_cases he : rest.isEmpty = true
  · have hnil : rest = [] := List.isEmpty_iff.mp he
    subst hnil
    simp
  · rw [if_neg he]
    have h1 : (⟨some (skipws code r), 1⟩ : Slot) =
        ⟨some (skipws code r), skipws code r + 1 - skipws code r⟩ := by
      congr 1; omega
    rw [h1, consumeLoop_eq T _ rest (skipws code r + 1) (skipws code r) (by omega)]
    refine Prod.ext rfl ?_
    simp only
    split <;> congr 1 <;> omega

/-- C19. Relation between the cursor returned by `consume` and its slot:
when a character other than whitespace is left (`c`, at the position
`skipws code r`, followed by `rest`), the returned cursor is the position
just past the maximal same-class run that starts at `c`; the slot starts at
`c`, is not empty and is the prefix of the run of its size; when the run is
followed by at least one more character of text, or has length 1, the slot
is the whole run and ends at the returned cursor; when a run of two or more
characters reaches the end of the text, the slot lacks its last character. -/
theorem consume_cursor_and_slot (T : Tables) (code : List Char) (r : Nat) (c : Char)
    (rest : List Char) (h : code.drop (skipws code r) = c :: rest) :
    (consume T code r).1 = skipws code r + (maximalRun T (c :: rest)).length ∧
    (consume T code r).2.data = some (skipws code r) ∧
    1 ≤ (consume T code r).2.size ∧
    (consume T code r).2.size ≤ (maximalRun T (c :: rest)).length ∧
    (consume T code r).2.chars code =
      (maximalRun T (c :: rest)).take (consume T code r).2.size ∧
    ((skipws code r + (maximalRun T (c :: rest)).length < code.length ∨
        (maximalRun T (c :: rest)).length = 1) →
      (consume T code r).2.size = (maximalRun T (c :: rest)).length ∧
      (consume T code r).2.chars code = maximalRun T (c :: rest) ∧
      skipws code r + (consume T code r).2.size = (consume T code r).1) ∧
    (skipws code r + (maximalRun T (c :: rest)).length = code.length →
      2 ≤ (maximalRun T (c :: rest)).length →
      (consume T code r).2.size + 1 = (maximalRun T (c :: rest)).length) := by
  have hlen : code.length = skipws code r + 1 + rest.length := by
    have := congrArg List.length h
    simp only [List.length_drop, List.length_cons] at this
    omega
  have hk : (rest.takeWhile (check T (isAnyOf c T.OPERATOR_CHARACTERS))).length ≤ rest.length :=
    (List.takeWhile_sublist _).length_le
  have hchars : ∀ n, n ≤ (rest.takeWhile (check T (isAnyOf c T.OPERATOR_CHARACTERS))).length + 1 →
      1 ≤ n →
      Slot.chars code ⟨some (skipws code r), n⟩ =
        (c :: rest.takeWhile (check T (isAnyOf c T.OPERATOR_CHARACTERS))).take n := by
    intro n hn h1
    obtain ⟨m, rfl⟩ : ∃ m, n = m + 1 := ⟨n - 1, by omega⟩
    simp only [Slot.chars, h, List.take_succ_cons]
    rw [take_takeWhile_of_le _ _ _ (by omega)]
  rw [consume_eq T h, maximalRun_cons]
  simp only [List.length_cons]
  by_cases hend : (rest.takeWhile (check T (isAnyOf c T.OPERATOR_CHARACTERS))).length =
      rest.length ∧ rest ≠ []
  · rw [if_pos hend]
    have hpos : 0 < rest.length := List.length_pos.mpr hend.2
    refine ⟨by omega, rfl, by simp only; omega, by simp only; omega,
      hchars _ (by omega) (by omega), ?_, ?_⟩
    · intro hcase
      rcases hcase with hcase | hcase <;> omega
    · intro _ _
      simp only
  · rw [if_neg hend]
    refine ⟨by omega, rfl, by simp only; omega, by simp only; omega, ?_, ?_, ?_⟩
    · exact hchars _ (le_refl _) (by omega)
    · intro _
      refine ⟨rfl, ?_, by simp only; omega⟩
      rw [hchars _ (le_refl _) (by omega)]
      exact List.take_of_length_le (by simp only [List.length_cons]; omega)
    · intro h1 h2
      exfalso
      apply hend
      constructor
      · omega
      · intro hnil
        subst hnil
        simp at h2

/-- Instance of `consume_cursor_and_slot` on the text `12+3` from its start,
with the sample table: the run `12` is followed by more text and the slot is
the whole run. -/
theorem consume_cursor_and_slot_witness :
    (consume sampleTables ['1', '2', '+', '3'] 0).1 = 2 ∧
    (consume sampleTables ['1', '2', '+', '3'] 0).2.chars ['1', '2', '+', '3'] = ['1', '2'] :=
  have h := consume_cursor_and_slot sampleTables ['1', '2', '+', '3'] 0 '1' ['2', '+', '3']
    (by decide)
  ⟨h.1.trans (by decide), (h.2.2.2.2.2.1 (Or.inl (by decide))).2.1.trans (by decide)⟩

/-- C12, on the code: when the maximal run is the two characters `c d` that
end the text, `consume` moves the cursor past both but sets `slot` to the
single character `c`, because its loop returns at the end of the text before
it extends `slot`; the slot is not the maximal run. -/
theorem slot_not_maximal_at_end (T : Tables) (code : List Char) (r : Nat) (c d : Char)
    (h : code.drop (skipws code r) = [c, d]) (hrun : maximalRun T [c, d] = [c, d]) :
    (consume T code r).1 = skipws code r + 2 ∧
    (consume T code r).2 = ⟨some (skipws code r), 1⟩ ∧
    (consume T code r).2.chars code = [c] ∧
    (consume T code r).2.chars code ≠ maximalRun T [c, d] := by
  rw [maximalRun_cons] at hrun
  have htw : [d].takeWhile (check T (isAnyOf c T.OPERATOR_CHARACTERS)) = [d] := by
    simpa using hrun
  have hc := consume_eq T h
  rw [htw] at hc
  simp only [List.length_cons, List.length_nil, ne_eq, reduceCtorEq, not_false_eq_true,
    and_self, if_true] at hc
  rw [maximalRun_cons, htw, hc]
  refine ⟨rfl, rfl, ?_, ?_⟩
  · simp [Slot.chars, h]
  · simp [Slot.chars, h]

/-- C12 at the texts `12` and `+=` with the sample table: the slots are `1`
and `+`. -/
theorem slot_of_12_and_plus_equals :
    ((consume sampleTables ['1', '2'] 0).1 = 2 ∧
      (consume sampleTables ['1', '2'] 0).2 = ⟨some 0, 1⟩ ∧
      (consume sampleTables ['1', '2'] 0).2.chars ['1', '2'] = ['1'] ∧
      (consume sampleTables ['1', '2'] 0).2.chars ['1', '2'] ≠
        maximalRun sampleTables ['1', '2']) ∧
    maximalRun sampleTables ['1', '2'] = ['1', '2'] ∧
    maximalRun sampleTables ['+', '='] = ['+', '='] ∧
    consume sampleTables ['+', '='] 0 = (2, ⟨some 0, 1⟩) ∧
    (consume sampleTables ['+', '='] 0).2.chars ['+', '='] = ['+'] :=
  ⟨slot_not_maximal_at_end sampleTables ['1', '2'] 0 '1' '2' (by decide) (by decide),
    by decide, by decide, by decide, by decide⟩

/-! ## The float rule at the end of the text -/

/-- C13, on the code: on the text `3.` (the period an operator character,
`3` a word character that is no spelling) the first looked-ahead raw token
is `.` and the second is the empty slot, on which the all-digits test holds
vacuously, so `scanFloatLiteral` takes the floating-point branch and calls
`std::from_chars` with the end of the range taken from the empty slot, which
does not point into the text: the run has no defined result, instead of the
integer 3 with the period left to be scanned. -/
theorem period_at_end_takes_float_branch (T : Tables)
    (hp : '.' ∈ T.OPERATOR_CHARACTERS) (h3 : '3' ∉ T.OPERATOR_CHARACTERS)
    (hnot : ['3'] ∉ T.OPERATOR_TOKENS) :
    consume T ['3', '.'] 1 = (2, ⟨some 1, 1⟩) ∧
    consume T ['3', '.'] 2 = (2, Slot.empty) ∧
    (Slot.empty.chars ['3', '.']).all Char.isDigit = true ∧
    scanToken T (Parser.new T ['3', '.']) =
      .fault .invalidRange ⟨['3', '.'], 1, ⟨T.defaultType, none, ⟨some 0, 1⟩⟩⟩ := by
  have c0 : consume T ['3', '.'] 0 = (1, ⟨some 0, 1⟩) :=
    consume_single T (show List.drop 0 ['3', '.'] = '3' :: '.' :: [] from rfl)
      (by decide) (by simp [check, isAnyOf_eq_false_iff.mpr h3, isAnyOf_eq_true_iff.mpr hp])
  have c1 : consume T ['3', '.'] 1 = (2, ⟨some 1, 1⟩) :=
    consume_last T (show List.drop 1 ['3', '.'] = ['.'] from rfl) (by decide)
  have c2 : consume T ['3', '.'] 2 = (2, Slot.empty) :=
    consume_of_nil T (show List.drop 2 ['3', '.'] = [] from rfl)
  have hidx : ¬ find T.OPERATOR_TOKENS ['3'] < T.OPERATOR_TOKENS.length :=
    fun hlt => hnot ((find_lt_iff _ _).mp hlt)
  refine ⟨c1, c2, rfl, ?_⟩
  simp [scanToken, scanFloatLiteral, Parser.new, c0, c1, c2, Slot.chars, Slot.empty, hidx,
    Outcome.bind]

/-- C13 at the text `3.` with the sample table; on `3.x` the integer branch
is taken and the cursor stays after the `3`. -/
theorem scan_3_period :
    (consume sampleTables ['3', '.'] 1 = (2, ⟨some 1, 1⟩) ∧
      consume sampleTables ['3', '.'] 2 = (2, Slot.empty) ∧
      (Slot.empty.chars ['3', '.']).all Char.isDigit = true ∧
      scanToken sampleTables (Parser.new sampleTables ['3', '.']) =
        .fault .invalidRange ⟨['3', '.'], 1, ⟨sampleTables.defaultType, none, ⟨some 0, 1⟩⟩⟩) ∧
    scanToken sampleTables (Parser.new sampleTables ['3', '.', 'x']) =
      .ok ⟨['3', '.', 'x'], 1, ⟨sampleTables.PRIMITIVE, some (.int 3), ⟨some 0, 1⟩⟩⟩ :=
  ⟨period_at_end_takes_float_branch sampleTables (by decide) (by decide) (by decide),
    by decide⟩

/-! ## Operator classification -/

theorem find_first (l : List (List Char)) (s : List Char) :
    ∀ i, i < find l s → l[i]? ≠ some s := by
  induction l with
  | nil => intro i hi; simp [find] at hi
  | cons x xs ih =>
    intro i hi
    by_cases hx : x = s
    · simp [find, hx] at hi
    · simp only [find, hx, if_false] at hi
      cases i with
      | zero =>
        simp only [List.getElem?_cons_zero, ne_eq, Option.some.injEq]
        exact hx
      | succ i =>
        simp only [List.getElem?_cons_succ]
        exact ih i (by omega)

theorem chars_of_size_zero (code : List Char) (s : Slot) (h : s.size = 0) :
    s.chars code = [] := by
  unfold Slot.chars
  cases s.data <;> simp [h]

/-- C14. Operator classification: when no spelling is empty, every raw
token returned by `consume` that equals an entry of `OPERATOR_TOKENS` is
scanned as the token whose kind is the index of the first entry equal to it,
without a literal value and with the cursor exactly where `consume` left it
(no lookahead); a raw token that equals no entry gets its kind without the
spelling list: `END_OF_FIELD` when it is empty, `PRIMITIVE` when it is all
digits, and otherwise the kind of a value-initialised token. -/
theorem operator_classification (T : Tables) (p : Parser)
    (hempty : [] ∉ T.OPERATOR_TOKENS) :
    ((consume T p.code p.r).2.chars p.code ∈ T.OPERATOR_TOKENS →
      scanToken T p = .ok ⟨p.code, (consume T p.code p.r).1,
        ⟨find T.OPERATOR_TOKENS ((consume T p.code p.r).2.chars p.code), none,
         (consume T p.code p.r).2⟩⟩ ∧
      T.OPERATOR_TOKENS[find T.OPERATOR_TOKENS ((consume T p.code p.r).2.chars p.code)]? =
        some ((consume T p.code p.r).2.chars p.code) ∧
      ∀ i, i < find T.OPERATOR_TOKENS ((consume T p.code p.r).2.chars p.code) →
        T.OPERATOR_TOKENS[i]? ≠ some ((consume T p.code p.r).2.chars p.code)) ∧
    ((consume T p.code p.r).2.chars p.code ∉ T.OPERATOR_TOKENS →
      ∀ p', scanToken T p = .ok p' →
        p'.currentTok.type =
          if (consume T p.code p.r).2.size = 0 then T.END_OF_FIELD
          else if ((consume T p.code p.r).2.chars p.code).all Char.isDigit then T.PRIMITIVE
          else T.defaultType) := by
  constructor
  · intro hmem
    have hsize : (consume T p.code p.r).2.size ≠ 0 := by
      intro h0
      rw [chars_of_size_zero _ _ h0] at hmem
      exact hempty hmem
    exact ⟨scanToken_of_spelling T p hsize hmem, find_get _ _ hmem, find_first _ _⟩
  · intro hmem p' h
    have hidx : ¬ find T.OPERATOR_TOKENS ((consume T p.code p.r).2.chars p.code) <
        T.OPERATOR_TOKENS.length := fun hlt => hmem ((find_lt_iff _ _).mp hlt)
    unfold scanToken at h
    simp only [hidx, if_false] at h
    by_cases hsize : (consume T p.code p.r).2.size = 0
    · rw [if_pos hsize] at h ⊢
      cases h
      rfl
    · rw [if_neg hsize] at h ⊢
      by_cases hdig : ((consume T p.code p.r).2.chars p.code).all Char.isDigit = true
      · rw [if_pos hdig] at h ⊢
        obtain ⟨res, _, hk⟩ := bind_eq_ok h
        cases hk
        rfl
      · rw [if_neg hdig] at h ⊢
        cases h
        rfl

/-- Instance of `operator_classification` on the text `1*2`, cursor after
the `1`, with the sample table: the raw token `*` becomes the operator of
kind 2, the index of `*` in the spelling list, and the cursor is 2. -/
theorem operator_classification_witness :
    scanToken sampleTables ⟨['1', '*', '2'], 1, ⟨4, some (.int 1), ⟨some 0, 1⟩⟩⟩ =
      .ok ⟨['1', '*', '2'], 2, ⟨2, none, ⟨some 1, 1⟩⟩⟩ ∧
    sampleTables.OPERATOR_TOKENS[2]? = some ['*'] :=
  have h := (operator_classification sampleTables
    ⟨['1', '*', '2'], 1, ⟨4, some (.int 1), ⟨some 0, 1⟩⟩⟩ (by decide)).1 (by decide)
  ⟨h.1, h.2.1⟩

/-! ## Shape of the parsed tree -/

theorem grouped_parent (T : Tables) (k : Nat) (l r : AstNode) :
    (AstNode.parent k l r).grouped T = true ↔
      (∀ kl, l.rootOp = some kl → T.OPERATOR_PRECEDENCE k ≤ T.OPERATOR_PRECEDENCE kl) ∧
      (∀ kr, r.rootOp = some kr → T.OPERATOR_PRECEDENCE k < T.OPERATOR_PRECEDENCE kr) ∧
      l.grouped T = true ∧ r.grouped T = true := by
  simp only [AstNode.grouped, Bool.and_eq_true, and_assoc]
  constructor
  · rintro ⟨h1, h2, h3, h4⟩
    refine ⟨fun kl hkl => ?_, fun kr hkr => ?_, h3, h4⟩
    · rw [hkl] at h1; simpa using h1
    · rw [hkr] at h2; simpa using h2
  · rintro ⟨h1, h2, h3, h4⟩
    refine ⟨?_, ?_, h3, h4⟩
    · cases hl : l.rootOp with
      | none => rfl
      | some kl => simpa using h1 kl hl
    · cases hr : r.rootOp with
      | none => rfl
      | some kr => simpa using h2 kr hr

theorem rootOp_mem_leftSpine {t : AstNode} {k : Nat} (h : t.rootOp = some k) :
    k ∈ t.leftSpine := by
  cases t with
  | leaf tok => cases h
  | parent type l r =>
    cases h
    simp [AstNode.leftSpine]

theorem leftSpine_subset_operators (t : AstNode) : ∀ o ∈ t.leftSpine, o ∈ t.operators := by
  induction t with
  | leaf tok => intro o ho; cases ho
  | parent type l r ihl _ =>
    intro o ho
    simp only [AstNode.leftSpine, List.mem_append, List.mem_singleton] at ho
    simp only [AstNode.operators, List.mem_append, List.mem_cons]
    rcases ho with ho | ho
    · exact Or.inl (ihl o ho)
    · exact Or.inr (Or.inl ho)

/-- What the loop of `parseBinaryExpression` builds from `left`: the
grouping invariant is kept, the left spine of `left` is extended by
operators of binding power above `prev`, and every new operator has binding
power above `prev` and every new leaf is `PRIMITIVE`. -/
theorem parseLoop_shape (T : Tables) (recurse : Int → Parser → Outcome (AstNode × Parser))
    (prev : Int)
    (hrec : ∀ prec p t p', recurse prec p = .ok (t, p') →
      t.grouped T = true ∧ (∀ o ∈ t.operators, prec < T.OPERATOR_PRECEDENCE o) ∧
      (∀ tok ∈ t.leaves, tok.type = T.PRIMITIVE) ∧
      (p'.currentTok.type = T.END_OF_FIELD ∨
        T.OPERATOR_PRECEDENCE p'.currentTok.type ≤ prec)) :
    ∀ (j : Nat) (left : AstNode) (nodeType : Nat) (q : Parser) (tree : AstNode) (p' : Parser),
      parseLoop T recurse prev j left nodeType q = .ok (tree, p') →
      left.grouped T = true →
      (∀ kl, left.rootOp = some kl →
        T.OPERATOR_PRECEDENCE nodeType ≤ T.OPERATOR_PRECEDENCE kl) →
      tree.grouped T = true ∧
      (∃ ops, tree.leftSpine = left.leftSpine ++ ops ∧
        ∀ o ∈ ops, prev < T.OPERATOR_PRECEDENCE o) ∧
      (∀ o ∈ tree.operators, o ∈ left.operators ∨ prev < T.OPERATOR_PRECEDENCE o) ∧
      (∀ tok ∈ tree.leaves, tok ∈ left.leaves ∨ tok.type = T.PRIMITIVE) := by
  intro j
  induction j with
  | zero => intro left nodeType q tree p' h; cases h
  | succ j ih =>
    intro left nodeType q tree p' h hg hroot
    rw [parseLoop_succ] at h
    by_cases hb : T.OPERATOR_PRECEDENCE nodeType > prev
    · rw [if_pos hb] at h
      obtain ⟨q1, _, h⟩ := bind_eq_ok h
      obtain ⟨res, hr, h⟩ := bind_eq_ok h
      obtain ⟨t2, q2⟩ := res
      obtain ⟨g2, ops2, leaves2, fin2⟩ := hrec _ _ _ _ hr
      have hg' : (AstNode.parent nodeType left t2).grouped T = true := by
        rw [grouped_parent]
        refine ⟨hroot, fun kr hkr => ?_, hg, g2⟩
        exact ops2 kr (leftSpine_subset_operators t2 kr (rootOp_mem_leftSpine hkr))
      have hops' : ∀ o ∈ (AstNode.parent nodeType left t2).operators,
          o ∈ left.operators ∨ prev < T.OPERATOR_PRECEDENCE o := by
        intro o ho
        simp only [AstNode.operators, List.mem_append, List.mem_cons] at ho
        rcases ho with ho | rfl | ho
        · exact Or.inl ho
        · exact Or.inr hb
        · exact Or.inr (lt_trans hb (ops2 o ho))
      have hleaves' : ∀ tok ∈ (AstNode.parent nodeType left t2).leaves,
          tok ∈ left.leaves ∨ tok.type = T.PRIMITIVE := by
        intro tok htok
        simp only [AstNode.leaves, List.mem_append] at htok
        rcases htok with htok | htok
        · exact Or.inl htok
        · exact Or.inr (leaves2 tok htok)
      simp only at h
      by_cases heof : q2.currentTok.type = T.END_OF_FIELD
      · rw [if_pos heof] at h
        cases h
        refine ⟨hg', ⟨[nodeType], rfl, ?_⟩, hops', hleaves'⟩
        intro o ho
        rw [List.mem_singleton.mp ho]
        exact hb
      · rw [if_neg heof] at h
        have hnext : ∀ kl, (AstNode.parent nodeType left t2).rootOp = some kl →
            T.OPERATOR_PRECEDENCE q2.currentTok.type ≤ T.OPERATOR_PRECEDENCE kl := by
          intro kl hkl
          cases hkl
          rcases fin2 with fin2 | fin2
          · exact absurd fin2 heof
          · exact fin2
        obtain ⟨i1, ⟨ops, i2, i3⟩, i4, i5⟩ := ih _ _ _ _ _ h hg' hnext
        refine ⟨i1, ⟨nodeType :: ops, ?_, ?_⟩, ?_, ?_⟩
        · rw [i2]; simp [AstNode.leftSpine]
        · intro o ho
          rcases List.mem_cons.mp ho with rfl | ho
          · exact hb
          · exact i3 o ho
        · intro o ho
          rcases i4 o ho with ho | ho
          · exact hops' o ho
          · exact Or.inr ho
        · intro tok htok
          rcases i5 tok htok with htok | htok
          · exact hleaves' tok htok
          · exact Or.inr htok
    · rw [if_neg hb] at h
      cases h
      exact ⟨hg, ⟨[], by simp, (fun o ho => by cases ho)⟩, fun o ho => Or.inl ho,
        fun tok htok => Or.inl htok⟩

/-- What `parseBinaryExpression` returns: a tree that satisfies the
grouping invariant, in which every operator has binding power above `prev`
and every leaf is `PRIMITIVE`. -/
theorem parseBinaryExpression_shape (T : Tables) :
    ∀ (k : Nat) (prev : Int) (p : Parser) (t : AstNode) (p' : Parser),
      parseBinaryExpression T k prev p = .ok (t, p') →
      t.grouped T = true ∧ (∀ o ∈ t.operators, prev < T.OPERATOR_PRECEDENCE o) ∧
      (∀ tok ∈ t.leaves, tok.type = T.PRIMITIVE) := by
  intro k
  induction k with
  | zero => intro prev p t p' h; cases h
  | succ k ih =>
    intro prev p t p' h
    rw [parseBinaryExpression_succ] at h
    obtain ⟨res, ht, h⟩ := bind_eq_ok h
    obtain ⟨t1, p1⟩ := res
    obtain ⟨hp, rfl, _⟩ := parseTerminalNode_ok T p t1 p1 ht
    simp only at h
    by_cases heof : p1.currentTok.type = T.END_OF_FIELD
    · rw [if_pos heof] at h
      cases h
      refine ⟨rfl, (fun o ho => by cases ho), fun tok htok => ?_⟩
      rw [List.mem_singleton.mp htok]
      exact hp
    · rw [if_neg heof] at h
      obtain ⟨g, _, hops, hleaves⟩ :=
        parseLoop_shape T (parseBinaryExpression T k) prev (fun prec p0 t0 p0' h0 => by
          obtain ⟨a, b, c⟩ := ih prec p0 t0 p0' h0
          obtain ⟨_, _, _, _, _, fin⟩ := parseBinaryExpression_reads T k prec p0 t0 p0' h0
          exact ⟨a, b, c, fin⟩) k _ _ _ _ _ h rfl (fun kl hkl => by cases hkl)
      refine ⟨g, fun o ho => ?_, fun tok htok => ?_⟩
      · rcases hops o ho with ho | ho
        · cases ho
        · exact ho
      · rcases hleaves tok htok with htok | htok
        · rw [List.mem_singleton.mp htok]
          exact hp
        · exact htok

/-! ## Uniqueness of the grouping -/

theorem inr_mem_inorder (t : AstNode) (k : Nat) :
    Sum.inr k ∈ t.inorder ↔ k ∈ t.operators := by
  induction t with
  | leaf tok => simp [AstNode.inorder, AstNode.operators]
  | parent type l r ihl ihr =>
    simp [AstNode.inorder, AstNode.operators, ihl, ihr]

theorem rootOp_of_mem_operators {t : AstNode} {o : Nat} (h : o ∈ t.operators) :
    ∃ k, t.rootOp = some k := by
  cases t with
  | leaf tok => cases h
  | parent type l r => exact ⟨type, rfl⟩

/-- In a tree that satisfies the grouping invariant no operator binds less
tightly than the operator at the root. -/
theorem grouped_root_le (T : Tables) (t : AstNode) (hg : t.grouped T = true) :
    ∀ k, t.rootOp = some k → ∀ o ∈ t.operators,
      T.OPERATOR_PRECEDENCE k ≤ T.OPERATOR_PRECEDENCE o := by
  induction t with
  | leaf tok => intro k hk; cases hk
  | parent type l r ihl ihr =>
    intro k hk o ho
    cases hk
    obtain ⟨h1, h2, gl, gr⟩ := (grouped_parent T type l r).mp hg
    simp only [AstNode.operators, List.mem_append, List.mem_cons] at ho
    rcases ho with ho | rfl | ho
    · obtain ⟨kl, hkl⟩ := rootOp_of_mem_operators ho
      exact le_trans (h1 kl hkl) (ihl gl kl hkl o ho)
    · exact le_refl _
    · obtain ⟨kr, hkr⟩ := rootOp_of_mem_operators ho
      exact le_of_lt (lt_of_lt_of_le (h2 kr hkr) (ihr gr kr hkr o ho))

theorem grouped_left_le (T : Tables) (k : Nat) (l r : AstNode)
    (hg : (AstNode.parent k l r).grouped T = true) :
    ∀ o ∈ l.operators, T.OPERATOR_PRECEDENCE k ≤ T.OPERATOR_PRECEDENCE o := by
  intro o ho
  obtain ⟨h1, _, gl, _⟩ := (grouped_parent T k l r).mp hg
  obtain ⟨kl, hkl⟩ := rootOp_of_mem_operators ho
  exact le_trans (h1 kl hkl) (grouped_root_le T l gl kl hkl o ho)

theorem grouped_right_lt (T : Tables) (k : Nat) (l r : AstNode)
    (hg : (AstNode.parent k l r).grouped T = true) :
    ∀ o ∈ r.operators, T.OPERATOR_PRECEDENCE k < T.OPERATOR_PRECEDENCE o := by
  intro o ho
  obtain ⟨_, h2, _, gr⟩ := (grouped_parent T k l r).mp hg
  obtain ⟨kr, hkr⟩ := rootOp_of_mem_operators ho
  exact lt_of_lt_of_le (h2 kr hkr) (grouped_root_le T r gr kr hkr o ho)

/-- Two trees that satisfy the grouping invariant and have the same in-order
sequence are equal. -/
theorem grouped_unique (T : Tables) :
    ∀ (t1 t2 : AstNode), t1.grouped T = true → t2.grouped T = true →
      t1.inorder = t2.inorder → t1 = t2 := by
  intro t1
  induction t1 with
  | leaf tok1 =>
    intro t2 _ _ h
    cases t2 with
    | leaf tok2 =>
      simp only [AstNode.inorder, List.cons.injEq, Sum.inl.injEq, and_true] at h
      rw [h]
    | parent k2 l2 r2 =>
      exfalso
      have : Sum.inr k2 ∈ (AstNode.leaf tok1).inorder := by
        rw [h]; simp [AstNode.inorder]
      simp [AstNode.inorder] at this
  | parent k1 l1 r1 ihl ihr =>
    intro t2 g1 g2 h
    cases t2 with
    | leaf tok2 =>
      exfalso
      have : Sum.inr k1 ∈ (AstNode.leaf tok2).inorder := by
        rw [← h]; simp [AstNode.inorder]
      simp [AstNode.inorder] at this
    | parent k2 l2 r2 =>
      obtain ⟨_, _, gl1, gr1⟩ := (grouped_parent T k1 l1 r1).mp g1
      obtain ⟨_, _, gl2, gr2⟩ := (grouped_parent T k2 l2 r2).mp g2
      simp only [AstNode.inorder] at h
      rcases List.append_eq_append_iff.mp h with ⟨a, ha1, ha2⟩ | ⟨a, ha1, ha2⟩
      · cases a with
        | nil =>
          simp only [List.append_nil, List.nil_append, List.cons.injEq, Sum.inr.injEq] at ha1 ha2
          rw [ihl l2 gl1 gl2 ha1.symm, ihr r2 gr1 gr2 ha2.2, ha2.1]
        | cons x a =>
          exfalso
          simp only [List.cons_append, List.cons.injEq] at ha2
          obtain ⟨hx, hrest⟩ := ha2
          have m1 : k1 ∈ l2.operators := by
            rw [← inr_mem_inorder, ha1, ← hx]; simp
          have m2 : k2 ∈ r1.operators := by
            rw [← inr_mem_inorder, hrest]; simp
          have := grouped_left_le T k2 l2 r2 g2 k1 m1
          have := grouped_right_lt T k1 l1 r1 g1 k2 m2
          omega
      · cases a with
        | nil =>
          simp only [List.append_nil, List.nil_append, List.cons.injEq, Sum.inr.injEq] at ha1 ha2
          rw [ihl l2 gl1 gl2 ha1, ihr r2 gr1 gr2 ha2.2.symm, ha2.1]
        | cons x a =>
          exfalso
          simp only [List.cons_append, List.cons.injEq] at ha2
          obtain ⟨hx, hrest⟩ := ha2
          have m1 : k2 ∈ l1.operators := by
            rw [← inr_mem_inorder, ha1, ← hx]; simp
          have m2 : k1 ∈ r2.operators := by
            rw [← inr_mem_inorder, hrest]; simp
          have := grouped_left_le T k1 l1 r1 g1 k2 m1
          have := grouped_right_lt T k2 l2 r2 g2 k1 m2
          omega

/-! ## Stop condition, grouping and shape of the returned tree -/

/-- C15. Stop condition of precedence climbing: whenever
`parseBinaryExpression(m)` returns a tree, the current token is
`END_OF_FIELD` or has binding power at most `m`, and every operator the call
itself consumed in its loop (the operators on the left spine of the returned
tree) has binding power strictly above `m`, so that an operator whose
binding power equals `m` is never consumed by the call; indeed every
operator of the returned tree has binding power strictly above `m`. -/
theorem stop_condition (T : Tables) (fuel : Nat) (m : Int) (p : Parser) (tree : AstNode)
    (p' : Parser) (h : parseBinaryExpression T fuel m p = .ok (tree, p')) :
    (p'.currentTok.type = T.END_OF_FIELD ∨ T.OPERATOR_PRECEDENCE p'.currentTok.type ≤ m) ∧
    (∀ o ∈ tree.leftSpine, m < T.OPERATOR_PRECEDENCE o) ∧
    (∀ o ∈ tree.leftSpine, T.OPERATOR_PRECEDENCE o ≠ m) ∧
    (∀ o ∈ tree.operators, m < T.OPERATOR_PRECEDENCE o) := by
  obtain ⟨_, _, _, _, _, fin⟩ := parseBinaryExpression_reads T fuel m p tree p' h
  obtain ⟨_, hops, _⟩ := parseBinaryExpression_shape T fuel m p tree p' h
  have hspine : ∀ o ∈ tree.leftSpine, m < T.OPERATOR_PRECEDENCE o :=
    fun o ho => hops o (leftSpine_subset_operators tree o ho)
  exact ⟨fin, hspine, fun o ho => ne_of_gt (hspine o ho), hops⟩

/-- Instance of `stop_condition` on the text `2*3+1` with the sample table:
the call with minimum binding power 10 entered at the token `2` consumes `*`
(binding power 20) and returns `2*3` at the token `+` (binding power 10). -/
theorem stop_condition_witness :
    ((0 : Nat) = sampleTables.END_OF_FIELD ∨ sampleTables.OPERATOR_PRECEDENCE 0 ≤ 10) ∧
    (∀ o ∈ (AstNode.parent 2 (digitLeaf sampleTables '2' 0)
        (digitLeaf sampleTables '3' 2)).leftSpine, 10 < sampleTables.OPERATOR_PRECEDENCE o) ∧
    (∀ o ∈ (AstNode.parent 2 (digitLeaf sampleTables '2' 0)
        (digitLeaf sampleTables '3' 2)).leftSpine, sampleTables.OPERATOR_PRECEDENCE o ≠ 10) ∧
    (∀ o ∈ (AstNode.parent 2 (digitLeaf sampleTables '2' 0)
        (digitLeaf sampleTables '3' 2)).operators, 10 < sampleTables.OPERATOR_PRECEDENCE o) :=
  stop_condition sampleTables 7 10
    ⟨['2', '*', '3', '+', '1'], 1, ⟨4, some (.int 2), ⟨some 0, 1⟩⟩⟩
    (.parent 2 (digitLeaf sampleTables '2' 0) (digitLeaf sampleTables '3' 2))
    ⟨['2', '*', '3', '+', '1'], 4, ⟨0, none, ⟨some 3, 1⟩⟩⟩ (by decide)

/-- C16. Grouping invariant of every parsed tree: in any tree returned by
`parseBinaryExpression`, at each parent node with operator `o` a right child
that is a parent node has an operator of binding power strictly above that
of `o`, and a left child that is a parent node has an operator of binding
power at least that of `o`; and the returned tree is the only tree with this
property that has its in-order sequence of leaf tokens and operator
kinds. -/
theorem grouping_invariant (T : Tables) (fuel : Nat) (m : Int) (p : Parser) (tree : AstNode)
    (p' : Parser) (h : parseBinaryExpression T fuel m p = .ok (tree, p')) :
    tree.grouped T = true ∧
    (∀ other : AstNode, other.grouped T = true → other.inorder = tree.inorder →
      other = tree) := by
  obtain ⟨hg, _, _⟩ := parseBinaryExpression_shape T fuel m p tree p' h
  exact ⟨hg, fun other ho hin => grouped_unique T other tree ho hg hin⟩

/-- Instance of `grouping_invariant` on the text `1+2*3` with the sample
table. -/
theorem grouping_invariant_witness :
    (AstNode.parent 0 (digitLeaf sampleTables '1' 0)
      (.parent 2 (digitLeaf sampleTables '2' 2) (digitLeaf sampleTables '3' 4))).grouped
        sampleTables = true ∧
    (∀ other : AstNode, other.grouped sampleTables = true →
      other.inorder = (AstNode.parent 0 (digitLeaf sampleTables '1' 0)
        (.parent 2 (digitLeaf sampleTables '2' 2) (digitLeaf sampleTables '3' 4))).inorder →
      other = AstNode.parent 0 (digitLeaf sampleTables '1' 0)
        (.parent 2 (digitLeaf sampleTables '2' 2) (digitLeaf sampleTables '3' 4))) :=
  grouping_invariant sampleTables 7 0
    ⟨['1', '+', '2', '*', '3'], 1, ⟨4, some (.int 1), ⟨some 0, 1⟩⟩⟩
    (.parent 0 (digitLeaf sampleTables '1' 0)
      (.parent 2 (digitLeaf sampleTables '2' 2) (digitLeaf sampleTables '3' 4)))
    ⟨['1', '+', '2', '*', '3'], 5, ⟨5, none, Slot.empty⟩⟩ (by decide)

/-! ## Cursor safety -/

theorem drop_eq_getD_cons (code : List Char) (r : Nat) (h : r < code.length) :
    code.drop r = code.getD r default :: code.drop (r + 1) := by
  rw [List.drop_eq_getElem_cons h]
  congr 1
  simp [List.getD_eq_getElem?_getD, h]

theorem skipwsLoopTrace_spec (code : List Char) :
    ∀ (fuel r : Nat), r < code.length → code.length - r ≤ fuel →
      (skipwsLoopTrace code fuel r).1 = skipwsLoop (code.drop r) r ∧
      ∀ i ∈ (skipwsLoopTrace code fuel r).2, i < code.length := by
  intro fuel
  induction fuel with
  | zero => intro r h1 h2; omega
  | succ fuel ih =>
    intro r h1 h2
    rw [drop_eq_getD_cons code r h1]
    unfold skipwsLoopTrace skipwsLoop
    by_cases hw : isAnyOf (code.getD r default) WHITESPACE = true
    · rw [if_pos hw, if_pos hw]
      by_cases he : r + 1 = code.length
      · rw [if_pos he]
        have hnil : code.drop (r + 1) = [] := List.drop_eq_nil_iff.mpr (by omega)
        rw [hnil]
        refine ⟨rfl, fun i hi => ?_⟩
        rw [List.mem_singleton.mp hi]
        exact h1
      · rw [if_neg he]
        obtain ⟨e1, e2⟩ := ih (r + 1) (by omega) (by omega)
        refine ⟨e1, fun i hi => ?_⟩
        rcases List.mem_cons.mp hi with rfl | hi
        · exact h1
        · exact e2 i hi
    · rw [if_neg hw, if_neg hw]
      refine ⟨rfl, fun i hi => ?_⟩
      rw [List.mem_singleton.mp hi]
      exact h1

theorem skipwsTrace_spec (code : List Char) (r : Nat) (h : r ≤ code.length) :
    (skipwsTrace code r).1 = skipws code r ∧
    ∀ i ∈ (skipwsTrace code r).2, i < code.length := by
  unfold skipwsTrace skipws
  by_cases he : r = code.length
  · rw [if_pos he]
    have hnil : code.drop r = [] := List.drop_eq_nil_iff.mpr (by omega)
    rw [hnil]
    exact ⟨rfl, fun i hi => by cases hi⟩
  · rw [if_neg he]
    exact skipwsLoopTrace_spec code _ r (by omega) (le_refl _)

theorem consumeLoopTrace_spec (T : Tables) (operatorRun : Bool) (code : List Char) :
    ∀ (fuel r : Nat) (slot : Slot), r < code.length → code.length - r ≤ fuel →
      (consumeLoopTrace T operatorRun code fuel r slot).1 =
        consumeLoop T operatorRun (code.drop r) r slot ∧
      ∀ i ∈ (consumeLoopTrace T operatorRun code fuel r slot).2, i < code.length := by
  intro fuel
  induction fuel with
  | zero => intro r slot h1 h2; omega
  | succ fuel ih =>
    intro r slot h1 h2
    rw [drop_eq_getD_cons code r h1]
    unfold consumeLoopTrace consumeLoop
    by_cases hc : check T operatorRun (code.getD r default) = true
    · rw [if_pos hc, if_pos hc]
      by_cases he : r + 1 = code.length
      · have hnil : code.drop (r + 1) = [] := List.drop_eq_nil_iff.mpr (by omega)
        rw [if_pos he, hnil]
        refine ⟨rfl, fun i hi => ?_⟩
        rw [List.mem_singleton.mp hi]
        exact h1
      · have hne : ¬ (code.drop (r + 1)).isEmpty = true := by
          rw [List.isEmpty_iff, List.drop_eq_nil_iff]
          omega
        rw [if_neg he, if_neg hne]
        obtain ⟨e1, e2⟩ := ih (r + 1) (slot.upTo (r + 1)) (by omega) (by omega)
        refine ⟨e1, fun i hi => ?_⟩
        rcases List.mem_cons.mp hi with rfl | hi
        · exact h1
        · rcases List.mem_cons.mp hi with rfl | hi
          · omega
          · exact e2 i hi
    · rw [if_neg hc, if_neg hc]
      refine ⟨rfl, fun i hi => ?_⟩
      rw [List.mem_singleton.mp hi]
      exact h1

theorem consumeTrace_spec (T : Tables) (code : List Char) (r : Nat) (h : r ≤ code.length) :
    (consumeTrace T code r).1 = consume T code r ∧
    ∀ i ∈ (consumeTrace T code r).2, i < code.length := by
  obtain ⟨s1, s2⟩ := skipwsTrace_spec code r h
  have hle := skipws_le code r h
  unfold consumeTrace
  simp only [s1]
  by_cases he : skipws code r = code.length
  · rw [if_pos he]
    have hnil : code.drop (skipws code r) = [] := List.drop_eq_nil_iff.mpr (by omega)
    rw [consume_of_skipws_nil T hnil]
    exact ⟨rfl, s2⟩
  · have hlt : skipws code r < code.length := by omega
    have hd := drop_eq_getD_cons code (skipws code r) hlt
    rw [if_neg he, consume_of_skipws_cons T hd]
    by_cases he1 : skipws code r + 1 = code.length
    · have hnil : code.drop (skipws code r + 1) = [] := List.drop_eq_nil_iff.mpr (by omega)
      rw [if_pos he1, hnil]
      refine ⟨rfl, fun i hi => ?_⟩
      rcases List.mem_append.mp hi with hi | hi
      · exact s2 i hi
      · rw [List.mem_singleton.mp hi]; exact hlt
    · have hne : ¬ (code.drop (skipws code r + 1)).isEmpty = true := by
        rw [List.isEmpty_iff, List.drop_eq_nil_iff]
        omega
      rw [if_neg he1, if_neg hne]
      obtain ⟨e1, e2⟩ := consumeLoopTrace_spec T
        (isAnyOf (code.getD (skipws code r) default) T.OPERATOR_CHARACTERS) code
        (code.length - (skipws code r + 1)) (skipws code r + 1) ⟨some (skipws code r), 1⟩
        (by omega) (le_refl _)
      refine ⟨e1, fun i hi => ?_⟩
      rcases List.mem_append.mp hi with hi | hi
      · exact s2 i hi
      · rcases List.mem_cons.mp hi with rfl | hi
        · exact hlt
        · rcases List.mem_cons.mp hi with rfl | hi
          · exact hlt
          · exact e2 i hi

/-- Across a sequence of `scanToken` calls the text is kept and the cursor
neither moves backward nor leaves the text. -/
theorem reads_cursor {T : Tables} {p p' : Parser} {toks : List Token}
    (h : Reads T p toks p') (hr : p.r ≤ p.code.length) :
    p'.code = p.code ∧ p.r ≤ p'.r ∧ p'.r ≤ p.code.length := by
  induction h with
  | nil p => exact ⟨rfl, le_refl _, hr⟩
  | cons hs _ ih =>
    obtain ⟨c1, c2, c3, _⟩ := scanToken_cursor T _ _ hs
    obtain ⟨i1, i2, i3⟩ := ih (by rw [c1]; exact c3 hr)
    exact ⟨i1.trans c1, by omega, by rw [c1] at i3; exact i3⟩

/-- C18. Cursor safety: for every text and every cursor position within it,
every dereference of the cursor in `skipws` and in `consume` happens at an
offset strictly before the end of the text (the functions with recorded
dereferences return what `skipws` and `consume` return), the cursor they
return lies between the cursor they were given and the end of the text, and
across any sequence of `scanToken` calls the cursor of the parser never moves
backward and never leaves the text. -/
theorem cursor_safety (T : Tables) (code : List Char) (r : Nat) (h : r ≤ code.length) :
    ((skipwsTrace code r).1 = skipws code r ∧
      ∀ i ∈ (skipwsTrace code r).2, i < code.length) ∧
    ((consumeTrace T code r).1 = consume T code r ∧
      ∀ i ∈ (consumeTrace T code r).2, i < code.length) ∧
    (r ≤ skipws code r ∧ skipws code r ≤ code.length) ∧
    (r ≤ (consume T code r).1 ∧ (consume T code r).1 ≤ code.length) ∧
    (∀ (t : Token) (p' : Parser), scanToken T ⟨code, r, t⟩ = .ok p' →
      p'.code = code ∧ r ≤ p'.r ∧ p'.r ≤ code.length) ∧
    (∀ (t : Token) (toks : List Token) (p' : Parser), Reads T ⟨code, r, t⟩ toks p' →
      p'.code = code ∧ r ≤ p'.r ∧ p'.r ≤ code.length) := by
  obtain ⟨c1, c2, _⟩ := consume_spec T code r
  refine ⟨skipwsTrace_spec code r h, consumeTrace_spec T code r h,
    ⟨skipws_ge code r, skipws_le code r h⟩, ⟨c1, c2 h⟩, ?_, ?_⟩
  · intro t p' hs
    obtain ⟨d1, d2, d3, _⟩ := scanToken_cursor T _ _ hs
    exact ⟨d1, d2, d3 h⟩
  · intro t toks p' hreads
    exact reads_cursor hreads h

/-- Instance of `cursor_safety` on the text `1 +2` from the cursor 1, with
the sample table: `consume` dereferences the offsets 1, 2, 2, 2 and 3, and
returns the cursor 3. -/
theorem cursor_safety_witness :
    consumeTrace sampleTables ['1', ' ', '+', '2'] 1 = ((3, ⟨some 2, 1⟩), [1, 2, 2, 2, 3]) ∧
    (∀ i ∈ (consumeTrace sampleTables ['1', ' ', '+', '2'] 1).2, i < 4) ∧
    (1 ≤ (consume sampleTables ['1', ' ', '+', '2'] 1).1 ∧
      (consume sampleTables ['1', ' ', '+', '2'] 1).1 ≤ 4) :=
  have h := cursor_safety sampleTables ['1', ' ', '+', '2'] 1 (by decide)
  ⟨by decide, h.2.1.2, h.2.2.2.1⟩

/-! ## A terminal required at the end of the text -/

/-- A digit followed by a one-character operator other than the period that
ends the text is scanned as the integer literal of that digit. -/
theorem scanToken_digit_before_last_operator (T : Tables) (p : Parser) {a o : Char}
    (h : p.code.drop p.r = [a, o])
    (ha : a.isDigit = true) (ha2 : a ∉ T.OPERATOR_CHARACTERS) (hnot : [a] ∉ T.OPERATOR_TOKENS)
    (ho : o ∈ T.OPERATOR_CHARACTERS) (hws : o ∉ WHITESPACE) (hperiod : o ≠ '.') :
    scanToken T p = .ok ⟨p.code, p.r + 1,
      ⟨T.PRIMITIVE, some (.int ((a.toNat - 48 : Nat) : Int)), ⟨some p.r, 1⟩⟩⟩ := by
  have hc : consume T p.code p.r = (p.r + 1, ⟨some p.r, 1⟩) :=
    consume_single T h (isAnyOf_whitespace_of_isDigit ha)
      (by simp [check, isAnyOf_eq_false_iff.mpr ha2, isAnyOf_eq_true_iff.mpr ho])
  have hc1 : consume T p.code (p.r + 1) = (p.r + 1 + 1, ⟨some (p.r + 1), 1⟩) :=
    consume_last T (drop_succ_of_drop h) (isAnyOf_eq_false_iff.mpr hws)
  have h1 := scanToken_of_integer T p (by simp [hc]) (by simp [hc, chars_single h, hnot])
    (by simp [hc, chars_single h, ha])
    (by simp [hc, hc1, chars_single (drop_succ_of_drop h), hperiod])
  simpa [hc, chars_single h, fromCharsInt_single ha] using h1

/-- A one-character operator spelling that ends the text is scanned as the
operator of its index. -/
theorem scanToken_last_operator (T : Tables) (p : Parser) {o : Char}
    (h : p.code.drop p.r = [o]) (hws : o ∉ WHITESPACE) (hmem : [o] ∈ T.OPERATOR_TOKENS) :
    scanToken T p = .ok ⟨p.code, p.r + 1, ⟨find T.OPERATOR_TOKENS [o], none, ⟨some p.r, 1⟩⟩⟩ := by
  have hc : consume T p.code p.r = (p.r + 1, ⟨some p.r, 1⟩) :=
    consume_last T h (isAnyOf_eq_false_iff.mpr hws)
  have h1 := scanToken_of_spelling T p (by simp [hc]) (by simp [hc, chars_single h, hmem])
  simpa [hc, chars_single h] using h1

/-- C17, on the code: on a text `a op` that ends with an operator (`a` a
digit, `op` a registered one-character spelling of binding power above 0),
the tokens are `PRIMITIVE`, the operator and `END_OF_FIELD`, and the right
operand of `op` is required from `parseTerminalNode` while the current token
is `END_OF_FIELD`: control reaches the end of that function, which has no
`return` statement there, and `parseBinaryExpression` hands whatever it
receives, unchecked, to `makeParent` as the right child.  The program has no
defined tree whose leaves all hold `PRIMITIVE` tokens on this text. -/
theorem operand_without_return (T : Tables) (a o : Char)
    (ha : a.isDigit = true) (ha2 : a ∉ T.OPERATOR_CHARACTERS) (hnot : [a] ∉ T.OPERATOR_TOKENS)
    (ho : o ∈ T.OPERATOR_CHARACTERS) (hws : o ∉ WHITESPACE) (hperiod : o ≠ '.')
    (hmem : [o] ∈ T.OPERATOR_TOKENS)
    (hpos : 0 < T.OPERATOR_PRECEDENCE (find T.OPERATOR_TOKENS [o]))
    (hk : find T.OPERATOR_TOKENS [o] ≠ T.END_OF_FIELD) :
    scanTokens T 3 (Parser.new T [a, o]) =
      .ok [⟨T.PRIMITIVE, some (.int ((a.toNat - 48 : Nat) : Int)), ⟨some 0, 1⟩⟩,
           ⟨find T.OPERATOR_TOKENS [o], none, ⟨some 1, 1⟩⟩,
           ⟨T.END_OF_FIELD, none, Slot.empty⟩] ∧
    T.END_OF_FIELD ≠ T.PRIMITIVE ∧
    parse T [a, o] =
      .fault .missingReturn ⟨[a, o], 2, ⟨T.END_OF_FIELD, none, Slot.empty⟩⟩ := by
  have s0 : ∀ t, scanToken T ⟨[a, o], 0, t⟩ = .ok ⟨[a, o], 1,
      ⟨T.PRIMITIVE, some (.int ((a.toNat - 48 : Nat) : Int)), ⟨some 0, 1⟩⟩⟩ := fun t =>
    scanToken_digit_before_last_operator T ⟨[a, o], 0, t⟩
      (show List.drop 0 [a, o] = [a, o] from rfl) ha ha2 hnot ho hws hperiod
  have s1 : ∀ t, scanToken T ⟨[a, o], 1, t⟩ = .ok ⟨[a, o], 2,
      ⟨find T.OPERATOR_TOKENS [o], none, ⟨some 1, 1⟩⟩⟩ := fun t =>
    scanToken_last_operator T ⟨[a, o], 1, t⟩ (show List.drop 1 [a, o] = [o] from rfl) hws hmem
  have s2 : ∀ t, scanToken T ⟨[a, o], 2, t⟩ = .ok ⟨[a, o], 2,
      ⟨T.END_OF_FIELD, none, Slot.empty⟩⟩ := fun t =>
    scanToken_at_end T ⟨[a, o], 2, t⟩ (show List.drop 2 [a, o] = [] from rfl)
  have hne : ¬ T.END_OF_FIELD = T.PRIMITIVE := fun e => T.distinct e.symm
  refine ⟨?_, hne, ?_⟩
  · simp [scanTokens, Parser.new, Outcome.bind, s0, s1, s2]
  · simp [parse, Parser.new, parseBinaryExpression, parseLoop, parseTerminalNode, Outcome.bind,
      s0, s1, s2, hk, hpos, hne]

/-- C17 at the text `1+` with the sample table. -/
theorem operand_without_return_witness :
    scanTokens sampleTables 3 (Parser.new sampleTables ['1', '+']) =
      .ok [⟨4, some (.int 1), ⟨some 0, 1⟩⟩, ⟨0, none, ⟨some 1, 1⟩⟩, ⟨5, none, Slot.empty⟩] ∧
    sampleTables.END_OF_FIELD ≠ sampleTables.PRIMITIVE ∧
    parse sampleTables ['1', '+'] =
      .fault .missingReturn ⟨['1', '+'], 2, ⟨5, none, Slot.empty⟩⟩ :=
  operand_without_return sampleTables '1' '+' (by decide) (by decide) (by decide) (by decide)
    (by decide) (by decide) (by decide) (by decide) (by decide)

end Compiler
